import Mathlib

/-!
Verification of the DFS web crawler and indexer repository.

Strings of the Python program are modelled as `List Char`; the four index
tables (Python dicts, which preserve insertion order) are modelled as
association lists with the dict update/lookup operations below; Python
floats are modelled as exact rationals `ℚ`; `math.log` and `math.sqrt` are
abstract function parameters (their raising of `ValueError` on a
non-positive argument is modelled explicitly where the code can reach it);
code that can raise returns `Option` (`none` = an exception was raised).
-/

/-- Python dict update `d[k] = v`: replaces the value of an existing key in
place, otherwise appends the new binding at the end (insertion order). -/
def dictSet {α β : Type} [DecidableEq α] : List (α × β) → α → β → List (α × β)
  | [], k, v => [(k, v)]
  | (k', v') :: rest, k, v =>
    if k' = k then (k, v) :: rest else (k', v') :: dictSet rest k v

/-- Python dict lookup `d.get(k)`. -/
def dictGet? {α β : Type} [DecidableEq α] (d : List (α × β)) (k : α) : Option β :=
  (d.find? (fun p => p.1 = k)).map Prod.snd

/-- Python dict lookup with default, `d.get(k, v0)`. -/
def dictGetD {α β : Type} [DecidableEq α] (d : List (α × β)) (k : α) (v0 : β) : β :=
  (dictGet? d k).getD v0

/-- Python dict membership test `k in d`. -/
def dictMem {α β : Type} [DecidableEq α] (d : List (α × β)) (k : α) : Bool :=
  d.any (fun p => p.1 = k)

/-- Builds a Python dict from a sequence of `d[k] = v` updates in order. -/
def buildDict {α β : Type} [DecidableEq α] (l : List (α × β)) : List (α × β) :=
  l.foldl (fun d e => dictSet d e.1 e.2) []

/-- The ASCII whitespace characters stripped by Python's `str.strip()`
(the program only ever strips ASCII text). -/
def pySpaceChars : List Char := [' ', '\t', '\n', '\r', Char.ofNat 11, Char.ofNat 12]

/-- Whether `str.strip()` removes this character. -/
def isPySpace (c : Char) : Bool := pySpaceChars.contains c

/-- Python `s.strip()`: remove leading and trailing whitespace. -/
def pyStrip (s : List Char) : List Char :=
  ((s.dropWhile isPySpace).reverse.dropWhile isPySpace).reverse

/-- The ASCII upper/lower case pairs used by `str.lower()` (the tokens this
program lowercases are ASCII alphanumeric runs). -/
def asciiUpperLower : List (Char × Char) :=
  [('A', 'a'), ('B', 'b'), ('C', 'c'), ('D', 'd'), ('E', 'e'), ('F', 'f'),
   ('G', 'g'), ('H', 'h'), ('I', 'i'), ('J', 'j'), ('K', 'k'), ('L', 'l'),
   ('M', 'm'), ('N', 'n'), ('O', 'o'), ('P', 'p'), ('Q', 'q'), ('R', 'r'),
   ('S', 's'), ('T', 't'), ('U', 'u'), ('V', 'v'), ('W', 'w'), ('X', 'x'),
   ('Y', 'y'), ('Z', 'z')]

/-- Python `str.lower()` on one character (ASCII case mapping). -/
def pyLower (c : Char) : Char :=
  match asciiUpperLower.find? (fun p => p.1 = c) with
  | some p => p.2
  | none => c

/-- The `utils.normalize_token` function: `token.lower().strip()`. -/
def normalize_token (t : List Char) : List Char := pyStrip (t.map pyLower)

/-- A character matched by the regex class `[a-zA-Z0-9]` in `utils.splitchars`. -/
def isAlnumChar (c : Char) : Bool :=
  ('a' ≤ c && c ≤ 'z') || ('A' ≤ c && c ≤ 'Z') || ('0' ≤ c && c ≤ '9')

/-- Helper for `splitchars`: `cur` is the current (reversed) run of
alphanumeric characters. -/
def splitcharsAux : List Char → List Char → List (List Char)
  | [], cur => if cur.isEmpty then [] else [cur.reverse]
  | c :: rest, cur =>
    if isAlnumChar c then splitcharsAux rest (c :: cur)
    else if cur.isEmpty then splitcharsAux rest []
    else cur.reverse :: splitcharsAux rest []

/-- The `utils.splitchars` function: `re.findall(r'[a-zA-Z0-9]+', s)`, the
maximal runs of ASCII alphanumeric characters. -/
def splitchars (s : List Char) : List (List Char) := splitcharsAux s []

/-- Python's `string.punctuation`. -/
def pyPunctuation : List Char :=
  ['!', '"', '#', '$', '%', '&', Char.ofNat 39, '(', ')', '*', '+', ',',
   '-', '.', '/', ':', ';', '<', '=', '>', '?', '@', '[', Char.ofNat 92,
   ']', '^', '_', Char.ofNat 96, Char.ofNat 123, '|', Char.ofNat 125, '~']

/-- The `utils.starts_with_punctuation` function. -/
def starts_with_punctuation (s : List Char) : Bool :=
  match s with
  | [] => false
  | c :: _ => pyPunctuation.contains c

/-- The `utils.is_short` function with its default limit 2. -/
def is_short (s : List Char) : Bool := s.length ≤ 2

/-- An ASCII decimal digit. -/
def isDigitChar (c : Char) : Bool := '0' ≤ c && c ≤ '9'

/-- A non-empty all-digit string (what Python `int(s)` accepts, restricted to
the canonical forms this program produces and feeds it: no sign, no
underscores, no surrounding whitespace). -/
def isDigits (s : List Char) : Bool := !s.isEmpty && s.all isDigitChar

/-- The `utils.is_number` function: true when Python `float(s)` or `int(s)`
accepts `s`.  Modelled on the domain the program feeds it — non-empty
lowercase alphanumeric tokens — where the accepted forms are digit runs,
`digits e digits` exponent forms, and the special float names. -/
def is_number (s : List Char) : Bool :=
  isDigits s ||
  (match s.dropWhile isDigitChar with
   | 'e' :: rest => !(s.takeWhile isDigitChar).isEmpty && isDigits rest
   | _ => false) ||
  s = "inf".toList || s = "infinity".toList || s = "nan".toList

/-- The `STOP_WORDS` set of `stop_words.py`, transcribed in source order
(the duplicate literals of the Python set literal are harmless for
membership). -/
def STOP_WORDS : List String :=
  ["a", "an", "the",
   "and", "or", "but", "nor", "so", "yet", "for",
   "about", "above", "across", "after", "against", "along", "among", "around",
   "at", "before", "behind", "below", "beneath", "beside", "between", "beyond",
   "by", "down", "during", "except", "for", "from", "in", "inside", "into",
   "like", "near", "of", "off", "on", "onto", "out", "outside", "over",
   "past", "since", "through", "throughout", "till", "to", "toward", "under",
   "underneath", "until", "up", "upon", "with", "within", "without",
   "i", "me", "my", "mine", "myself",
   "you", "your", "yours", "yourself", "yourselves",
   "he", "him", "his", "himself",
   "she", "her", "hers", "herself",
   "it", "its", "itself",
   "we", "us", "our", "ours", "ourselves",
   "they", "them", "their", "theirs", "themselves",
   "am", "is", "are", "was", "were", "be", "been", "being",
   "have", "has", "had", "having", "do", "does", "did", "doing",
   "will", "would", "shall", "should", "can", "could", "may", "might", "must",
   "very", "too", "quite", "rather", "somewhat", "almost", "just", "only",
   "really", "even", "ever", "never", "always", "often", "sometimes", "usually",
   "well", "better", "best", "bad", "worse", "worst",
   "all", "any", "both", "each", "every", "few", "many", "more", "most",
   "much", "several", "some", "such", "no", "none", "other", "same",
   "different", "new", "old", "good", "great", "high", "small", "large",
   "big", "long", "little", "young", "important", "early", "late",
   "aren't", "can't", "couldn't", "didn't", "doesn't", "don't", "hadn't",
   "hasn't", "haven't", "isn't", "mightn't", "mustn't", "needn't", "shan't",
   "shouldn't", "wasn't", "weren't", "won't", "wouldn't",
   "also", "however", "therefore", "thus", "hence", "consequently",
   "furthermore", "moreover", "nevertheless", "nonetheless", "otherwise",
   "similarly", "accordingly", "besides", "else", "instead", "likewise",
   "meanwhile", "moreover", "namely", "next", "now", "otherwise", "still",
   "then", "thereafter", "therefore", "thus", "undoubtedly",
   "click", "here", "home", "page", "website", "web", "site", "link",
   "menu", "navigation", "footer", "header", "sidebar", "content",
   "copyright", "privacy", "policy", "terms", "conditions", "contact",
   "about", "us", "our", "services", "products", "blog", "news",
   "read", "more", "view", "download", "subscribe", "sign", "up",
   "login", "logout", "register", "account", "profile", "settings",
   "today", "tomorrow", "yesterday", "now", "then", "when", "while",
   "before", "after", "during", "since", "until", "soon", "later",
   "early", "late", "always", "never", "often", "sometimes", "usually",
   "here", "there", "where", "everywhere", "anywhere", "somewhere",
   "above", "below", "under", "over", "between", "among", "through",
   "what", "which", "who", "whom", "whose", "why", "how", "when", "where",
   "this", "that", "these", "those",
   "one", "two", "three", "four", "five", "six", "seven", "eight", "nine", "ten",
   "first", "second", "third", "fourth", "fifth", "last", "next", "previous",
   "com", "www", "http", "https", "html", "htm", "php", "asp", "jsp",
   "index", "default", "main", "homepage"]

/-- The `stop_words.is_stop_word` function: `word.lower() in STOP_WORDS`. -/
def is_stop_word (w : List Char) : Bool :=
  (STOP_WORDS.map String.toList).contains (w.map pyLower)

/-- A posting record: created as `{'tf': freq}`; the scoring pass later adds
the `tf_idf`, `idf` and `df` keys (`none` = key absent). -/
structure Posting where
  tf : Nat
  tf_idf : Option ℚ := none
  idf : Option ℚ := none
  df : Option Nat := none
deriving Repr, DecidableEq

/-- The `Indexer.stats` dictionary of `indexer.py`. -/
structure IndexerStats where
  tokens_processed : Nat := 0
  stop_words_matched : Nat := 0
  short_words_ignored : Nat := 0
  numbers_ignored : Nat := 0
  punctuation_words_ignored : Nat := 0
deriving Repr, DecidableEq

/-- The mutable state of the `Indexer` class of `indexer.py`: the four index
tables, the two id counters, the totals and the statistics counters. -/
structure Indexer where
  documents : List (List Char × Nat) := []
  documents_inv : List (Nat × List Char) := []
  terms : List (List Char × Nat) := []
  terms_inv : List (Nat × List Char) := []
  postings : List (Nat × List (Nat × Posting)) := []
  doc_lengths : List (Nat × ℚ) := []
  next_doc_id : Nat := 1
  next_term_id : Nat := 1
  total_docs : Nat := 0
  total_terms : Nat := 0
  stats : IndexerStats := {}
deriving Repr, DecidableEq

/-- A freshly constructed `Indexer` (its `__init__`). -/
def emptyIndexer : Indexer := {}

/-- One iteration of the token loop of `Indexer.process_document_from_text`
(lines 125-160 of `indexer.py`), acting on the statistics and the local
`term_freq` dict.  `stem` is the external stemming capability; the
`try/except` fallback around it is subsumed by the total parameter. -/
def processToken (stem : List Char → List Char)
    (st : IndexerStats × List (List Char × Nat)) (token : List Char) :
    IndexerStats × List (List Char × Nat) :=
  let tl := normalize_token token
  if tl.isEmpty then st
  else
    let stats := {st.1 with tokens_processed := st.1.tokens_processed + 1}
    if is_stop_word tl then
      ({stats with stop_words_matched := stats.stop_words_matched + 1}, st.2)
    else if starts_with_punctuation tl then
      ({stats with punctuation_words_ignored := stats.punctuation_words_ignored + 1}, st.2)
    else if is_short tl then
      ({stats with short_words_ignored := stats.short_words_ignored + 1}, st.2)
    else if is_number tl then
      ({stats with numbers_ignored := stats.numbers_ignored + 1}, st.2)
    else
      let stemmed := stem tl
      (stats, dictSet st.2 stemmed (dictGetD st.2 stemmed 0 + 1))

/-- One iteration of the postings-update loop of
`Indexer.process_document_from_text` (lines 163-170 of `indexer.py`):
assign a term id to a new term (maintaining `terms_inv`), then upsert
`postings[term_id][doc_id] = {'tf': freq}`. -/
def indexAddTerm (doc_id : Nat) (ix : Indexer) (e : List Char × Nat) : Indexer :=
  let ix :=
    if dictMem ix.terms e.1 then ix
    else {ix with terms := dictSet ix.terms e.1 ix.next_term_id,
                  terms_inv := dictSet ix.terms_inv ix.next_term_id e.1,
                  next_term_id := ix.next_term_id + 1}
  let term_id := dictGetD ix.terms e.1 0
  {ix with postings := dictSet ix.postings term_id (dictSet (dictGetD ix.postings term_id []) doc_id {tf := e.2})}

/-- The postings-update loop of `Indexer.process_document_from_text`. -/
def addTermPostings (ix : Indexer) (doc_id : Nat) (term_freq : List (List Char × Nat)) : Indexer :=
  term_freq.foldl (indexAddTerm doc_id) ix

/-- The `Indexer.process_document_from_text` method: assign a document id,
tokenize, filter, stem, and record the postings.  Returns the new state and
the assigned `doc_id`. -/
def Indexer.process_document_from_text (stem : List Char → List Char)
    (ix : Indexer) (doc_content doc_path : List Char) : Indexer × Nat :=
  let doc_id := ix.next_doc_id
  let ix := {ix with documents := dictSet ix.documents doc_path doc_id,
                     documents_inv := dictSet ix.documents_inv doc_id doc_path,
                     next_doc_id := ix.next_doc_id + 1}
  let st := (splitchars doc_content).foldl (processToken stem) (ix.stats, [])
  (addTermPostings {ix with stats := st.1} doc_id st.2, doc_id)

/-- Python's `math.log`, which raises `ValueError` (here `none`) on a
non-positive argument; on a positive argument it returns `log x` for the
abstract real logarithm parameter `log`. -/
def mathLog (log : ℚ → ℚ) (x : ℚ) : Option ℚ :=
  if x ≤ 0 then none else some (log x)

/-- The scoring loop shared by `Indexer.calculate_tf_idf` and
`WebCrawler.calculate_tf_idf`: for each term, `df` is the size of its
posting dict; terms with `df == 0` are skipped; otherwise
`idf = math.log(N / df)` and every posting of the term gets
`tf_idf = tf * idf` plus the stored `idf` and `df`. -/
def calcTfIdfPostings (log : ℚ → ℚ) (N : Nat) :
    List (Nat × List (Nat × Posting)) → Option (List (Nat × List (Nat × Posting)))
  | [] => some []
  | (term_id, doc_postings) :: rest =>
    let df := doc_postings.length
    if df = 0 then (calcTfIdfPostings log N rest).map ((term_id, doc_postings) :: ·)
    else
      match mathLog log ((N : ℚ) / (df : ℚ)) with
      | none => none
      | some idf =>
        (calcTfIdfPostings log N rest).map
          ((term_id, doc_postings.map (fun e =>
            (e.1, {e.2 with tf_idf := some ((e.2.tf : ℚ) * idf),
                            idf := some idf, df := some df}))) :: ·)

/-- The `Indexer.calculate_tf_idf` method: `N = len(self.documents)`. -/
def Indexer.calculate_tf_idf (log : ℚ → ℚ) (ix : Indexer) : Option Indexer :=
  (calcTfIdfPostings log ix.documents.length ix.postings).map
    (fun ps => {ix with postings := ps})

/-- Accumulation loop of one document's `length_squared` in
`Indexer.calculate_document_lengths`: over all terms, if the document has a
posting there, add `tf_idf ** 2`; a posting without the `tf_idf` key raises
`KeyError` (`none`). -/
def docLengthSqAux (did : Nat) :
    List (Nat × List (Nat × Posting)) → ℚ → Option ℚ
  | [], acc => some acc
  | (_, dps) :: rest, acc =>
    match dictGet? dps did with
    | none => docLengthSqAux did rest acc
    | some po =>
      match po.tf_idf with
      | none => none
      | some v => docLengthSqAux did rest (acc + v * v)

/-- The `length_squared` of one document over a postings table. -/
def docLengthSq (postings : List (Nat × List (Nat × Posting))) (did : Nat) : Option ℚ :=
  docLengthSqAux did postings 0

/-- The per-document loop of `Indexer.calculate_document_lengths`, iterating
over `documents_inv` and setting
`doc_lengths[doc_id] = sqrt(length_squared) if length_squared > 0 else 1.0`.
`sqrt` is the abstract square root (`math.sqrt`, only ever called on a
positive sum of squares here). -/
def calcDocLengthsAux (sqrt : ℚ → ℚ) (postings : List (Nat × List (Nat × Posting))) :
    List (Nat × List Char) → List (Nat × ℚ) → Option (List (Nat × ℚ))
  | [], dl => some dl
  | (did, _) :: rest, dl =>
    match docLengthSq postings did with
    | none => none
    | some sq =>
      calcDocLengthsAux sqrt postings rest
        (dictSet dl did (if 0 < sq then sqrt sq else 1))

/-- The `Indexer.calculate_document_lengths` method. -/
def Indexer.calculate_document_lengths (sqrt : ℚ → ℚ) (ix : Indexer) : Option Indexer :=
  (calcDocLengthsAux sqrt ix.postings ix.documents_inv ix.doc_lengths).map
    (fun dl => {ix with doc_lengths := dl})

/-- The `self.stats` dictionary of the `WebCrawler` class (the timing fields
are outside the model). -/
structure CrawlerStats where
  documents_processed : Nat := 0
  total_tokens : Nat := 0
  unique_terms : Nat := 0
  stop_words_matched : Nat := 0
  urls_crawled : Nat := 0
  urls_in_frontier : Nat := 0
deriving Repr, DecidableEq

/-- The mutable state of the `WebCrawler` class of `webcrawler.py`. -/
structure WebCrawler where
  max_urls : Nat
  max_depth : Nat
  stats : CrawlerStats := {}
  indexer : Indexer
deriving Repr, DecidableEq

/-- `WebCrawler.__init__`: fresh statistics and a fresh `Indexer` whose
`documents`, `postings` and id counters are (re)set to empty and 1. -/
def WebCrawler.init (max_urls max_depth : Nat) : WebCrawler :=
  { max_urls := max_urls, max_depth := max_depth, stats := {},
    indexer := {emptyIndexer with documents := [], postings := [],
                                  next_doc_id := 1, next_term_id := 1} }

/-- One iteration of the token loop of `WebCrawler.process_document`
(lines 219-252 of `webcrawler.py`).  Unlike the indexer's loop it counts
only `total_tokens` and `stop_words_matched`; punctuation, short and number
rejections are uncounted. -/
def crawlProcessToken (stem : List Char → List Char)
    (st : CrawlerStats × List (List Char × Nat)) (token : List Char) :
    CrawlerStats × List (List Char × Nat) :=
  let tl := normalize_token token
  if tl.isEmpty then st
  else
    let stats := {st.1 with total_tokens := st.1.total_tokens + 1}
    if is_stop_word tl then
      ({stats with stop_words_matched := stats.stop_words_matched + 1}, st.2)
    else if starts_with_punctuation tl then (stats, st.2)
    else if is_short tl then (stats, st.2)
    else if is_number tl then (stats, st.2)
    else
      let stemmed := stem tl
      (stats, dictSet st.2 stemmed (dictGetD st.2 stemmed 0 + 1))

/-- One iteration of the postings-update loop of
`WebCrawler.process_document` (lines 255-268 of `webcrawler.py`): assign a
term id to a new term (counting it in `stats['unique_terms']`), then upsert
`indexer.postings[term_id][doc_id] = {'tf': freq}`.  Unlike the indexer's
own loop it never touches `terms_inv`. -/
def crawlAddTerm (doc_id : Nat) (p : Indexer × CrawlerStats) (e : List Char × Nat) :
    Indexer × CrawlerStats :=
  let q :=
    if dictMem p.1.terms e.1 then p
    else ({p.1 with terms := dictSet p.1.terms e.1 p.1.next_term_id,
                    next_term_id := p.1.next_term_id + 1},
          {p.2 with unique_terms := p.2.unique_terms + 1})
  let term_id := dictGetD q.1.terms e.1 0
  ({q.1 with postings := dictSet q.1.postings term_id (dictSet (dictGetD q.1.postings term_id []) doc_id {tf := e.2})}, q.2)

/-- The `WebCrawler.process_document` method (lines 207-271 of
`webcrawler.py`).  It updates `indexer.documents` but, unlike
`Indexer.process_document_from_text`, never touches
`indexer.documents_inv` or `indexer.terms_inv`. -/
def WebCrawler.process_document (stem : List Char → List Char)
    (wc : WebCrawler) (url text : List Char) : WebCrawler :=
  let ix := wc.indexer
  let doc_id := ix.next_doc_id
  let ix := {ix with documents := dictSet ix.documents url doc_id,
                     next_doc_id := ix.next_doc_id + 1}
  let st := (splitchars text).foldl (crawlProcessToken stem) (wc.stats, [])
  let p := st.2.foldl (crawlAddTerm doc_id) (ix, st.1)
  { wc with indexer := p.1,
            stats := {p.2 with documents_processed := p.2.documents_processed + 1} }

/-- The `WebCrawler.calculate_tf_idf` method: the same scoring loop with
`N = self.stats['documents_processed']`. -/
def WebCrawler.calculate_tf_idf (log : ℚ → ℚ) (wc : WebCrawler) : Option WebCrawler :=
  (calcTfIdfPostings log wc.stats.documents_processed wc.indexer.postings).map
    (fun ps => {wc with indexer := {wc.indexer with postings := ps}})

/-- Modelled from the spec: the repository's `url_manager.py` (class
`URLManager`) is imported by `webcrawler.py` but is not among the source
files, so the URL frontier is modelled from spec §4.1: a LIFO stack of
`(url, depth)` entries plus a visited set; `push` canonicalizes and is a
no-op when the URL was already seen (pending or visited) or when the total
frontier size (pending + visited) has reached `max_urls`.  `canon` is the
URL canonicalization (`utils.normalize_url`, whose `urllib` internals are
external). -/
structure URLManager where
  max_urls : Nat
  stack : List (List Char × Nat) := []
  visited : List (List Char) := []
deriving Repr, DecidableEq

/-- Modelled from the spec: `URLManager(max_urls)` starts empty. -/
def URLManager.init (max_urls : Nat) : URLManager := {max_urls := max_urls}

/-- Modelled from the spec: `URLManager.add_url(url, depth)` (spec §4.1). -/
def URLManager.add_url (canon : List Char → List Char)
    (um : URLManager) (url : List Char) (depth : Nat) : URLManager :=
  let nu := canon url
  if nu ∈ um.stack.map Prod.fst ∨ nu ∈ um.visited ∨
      um.max_urls ≤ um.stack.length + um.visited.length then um
  else {um with stack := (nu, depth) :: um.stack}

/-- Modelled from the spec: `URLManager.is_empty()`. -/
def URLManager.is_empty (um : URLManager) : Bool := um.stack.isEmpty

/-- Modelled from the spec: `URLManager.get_next_url()` pops the top stack
entry and marks its URL visited. -/
def URLManager.get_next_url (um : URLManager) :
    Option ((List Char × Nat) × URLManager) :=
  match um.stack with
  | [] => none
  | e :: rest => some (e, {um with stack := rest, visited := e.1 :: um.visited})

/-- Modelled from the spec: `URLManager.get_queue_size()`, the number of
pending frontier entries. -/
def URLManager.get_queue_size (um : URLManager) : Nat := um.stack.length

/-- The external collaborators of the crawl loop: `fetch_url` (network,
`None` = fetch failed), `extract_text_from_html`, and the link extraction
(whose regex/urljoin internals live in external libraries). -/
structure CrawlOracle where
  fetch : List Char → Option (List Char)
  extractText : List Char → List Char
  extractLinks : List Char → List Char → List (List Char)
  canon : List Char → List Char
  stem : List Char → List Char

/-- The frontier-push loop at lines 107-113 of `webcrawler.py`: each link is
added only while `stats['urls_in_frontier'] < max_urls`, and the frontier
size statistic is refreshed after each add. -/
def pushLinks (canon : List Char → List Char) (depth : Nat) :
    WebCrawler → URLManager → List (List Char) → WebCrawler × URLManager
  | wc, um, [] => (wc, um)
  | wc, um, link :: rest =>
    if wc.stats.urls_in_frontier < wc.max_urls then
      let um := um.add_url canon link (depth + 1)
      let wc := {wc with stats := {wc.stats with urls_in_frontier := um.get_queue_size}}
      pushLinks canon depth wc um rest
    else pushLinks canon depth wc um rest

/-- The body of the main crawling loop of `WebCrawler.crawl` (lines 83-127
of `webcrawler.py`), iterated with explicit fuel: pop, late depth check,
fetch (failure skips), process, push child links while under the budget,
advance `urls_crawled`, and break once `urls_crawled` reaches `max_urls`. -/
def crawlLoop (o : CrawlOracle) : Nat → URLManager → WebCrawler → WebCrawler × URLManager
  | 0, um, wc => (wc, um)
  | fuel + 1, um, wc =>
    if um.is_empty then (wc, um)
    else
      match um.get_next_url with
      | none => (wc, um)
      | some ((url, depth), um) =>
        if wc.max_depth < depth then crawlLoop o fuel um wc
        else
          match o.fetch url with
          | none => crawlLoop o fuel um wc
          | some html =>
            let text := o.extractText html
            let wc := wc.process_document o.stem url text
            let p :=
              if wc.stats.urls_crawled < wc.max_urls then
                pushLinks o.canon depth wc um (o.extractLinks html url)
              else (wc, um)
            let wc := p.1
            let um := p.2
            let wc := {wc with stats := {wc.stats with urls_crawled := wc.stats.urls_crawled + 1}}
            if wc.max_urls ≤ wc.stats.urls_crawled then (wc, um)
            else crawlLoop o fuel um wc

/-- The traversal part of `WebCrawler.crawl(start_url)`: seed the frontier
with the start URL at depth 0 and run the main loop (the scoring and
persistence stages that follow the loop do not touch the URL counters). -/
def WebCrawler.crawl (o : CrawlOracle) (wc : WebCrawler) (start_url : List Char)
    (fuel : Nat) : WebCrawler × URLManager :=
  let um := URLManager.init wc.max_urls
  let um := um.add_url o.canon start_url 0
  crawlLoop o fuel um wc

/-- The decimal digit character for `d < 10`. -/
def digitToChar (d : Nat) : Char :=
  if d = 0 then '0' else if d = 1 then '1' else if d = 2 then '2'
  else if d = 3 then '3' else if d = 4 then '4' else if d = 5 then '5'
  else if d = 6 then '6' else if d = 7 then '7' else if d = 8 then '8' else '9'

/-- Decimal digits of `n > 0`, big-endian; `fuel ≥ n` bounds the recursion. -/
def natToCharsAux : Nat → Nat → List Char
  | _, 0 => []
  | 0, _ + 1 => []
  | fuel + 1, n + 1 => natToCharsAux fuel ((n + 1) / 10) ++ [digitToChar ((n + 1) % 10)]

/-- Python `str(n)` for a natural number. -/
def natToChars (n : Nat) : List Char :=
  if n = 0 then ['0'] else natToCharsAux n n

/-- Value of a big-endian digit string. -/
def digitsVal (s : List Char) : Nat := s.foldl (fun a c => 10 * a + (c.toNat - 48)) 0

/-- Python `int(s)` (restricted, see `isDigits`). -/
def charsToNat? (s : List Char) : Option Nat :=
  if isDigits s then some (digitsVal s) else none

/-- Round the fraction `n / d` (with `d > 0`) to the nearest integer, ties
to even — the rounding used by Python's fixed-point float formatting.
`f` is the floor of the fraction and `r2 / 2d` its fractional part. -/
def divRoundHalfEven (n d : ℤ) : ℤ :=
  let f := n.fdiv d
  let r2 := 2 * (n - f * d)
  if r2 < d then f
  else if d < r2 then f + 1
  else if f % 2 = 0 then f else f + 1

/-- The six fractional digits of a fixed-point rendering, left-padded with
zeros (`k < 10^6`). -/
def padSixDigits (k : Nat) : List Char :=
  List.replicate (6 - (natToChars k).length) '0' ++ natToChars k

/-- Python `f"{q:.6f}"`: fixed-point formatting with six decimal places on
the exact-rational model of floats: `q · 10^6 = (q.num · 10^6) / q.den` is
rounded half-to-even to an integer whose digits are rendered around the
decimal point. -/
def format6 (q : ℚ) : List Char :=
  let n := divRoundHalfEven (q.num * 1000000) (q.den : ℤ)
  let m := n.natAbs
  (if n < 0 then ['-'] else []) ++
    natToChars (m / 1000000) ++ '.' :: padSixDigits (m % 1000000)

/-- Python `s.split(sep)` for a one-character separator: always returns at
least one (possibly empty) field. -/
def splitOnChar (sep : Char) : List Char → List (List Char)
  | [] => [[]]
  | c :: rest =>
    if c = sep then [] :: splitOnChar sep rest
    else
      match splitOnChar sep rest with
      | [] => [[c]]
      | f :: fs => (c :: f) :: fs

/-- Python `float(s)` on an unsigned decimal string (restricted to the
canonical `digits[.digits]` forms the saver produces; the full `float`
grammar also accepts exponents, specials and surrounding whitespace, none
of which occur in saved index files). -/
def parseUFloat? (s : List Char) : Option ℚ :=
  match splitOnChar '.' s with
  | [ip] => (charsToNat? ip).map (fun n => (n : ℚ))
  | [ip, fp] => do
    let n ← charsToNat? ip
    let f ← charsToNat? fp
    pure ((n : ℚ) + (f : ℚ) / ((10 : ℚ) ^ fp.length))
  | _ => none

/-- Python `float(s)` with an optional leading minus sign. -/
def parseFloat? (s : List Char) : Option ℚ :=
  if s.head? = some '-' then (parseUFloat? s.tail).map (fun q => -q)
  else parseUFloat? s

/-- The four files written by `Indexer.save_index`, each as its list of
lines (every written record ends in a single newline, so the byte content
of a file and its line list determine each other as long as no field
contains a newline). -/
structure SavedFiles where
  documents : List (List Char)
  terms : List (List Char)
  postings : List (List Char)
  doc_lengths : List (List Char)
deriving Repr, DecidableEq

/-- One line of `postings.dat`:
`f"{term_id},{doc_id},{tf_idf:.6f},{tf},{idf:.6f},{df}"` with the
`posting.get(key, 0)` defaults of `Indexer.save_index`. -/
def postingLine (term_id did : Nat) (po : Posting) : List Char :=
  natToChars term_id ++ ',' :: natToChars did ++ ',' :: format6 (po.tf_idf.getD 0) ++
    ',' :: natToChars po.tf ++ ',' :: format6 (po.idf.getD 0) ++ ',' :: natToChars (po.df.getD 0)

/-- The `Indexer.save_index` method (lines 255-299 of `indexer.py`): the
four tables serialized in iteration (= insertion) order. -/
def Indexer.save_index (ix : Indexer) : SavedFiles :=
  { documents := ix.documents.map (fun e => e.1 ++ ',' :: natToChars e.2)
    terms := ix.terms.map (fun e => e.1 ++ ',' :: natToChars e.2)
    postings := ix.postings.flatMap (fun g => g.2.map (fun e => postingLine g.1 e.1 e.2))
    doc_lengths := ix.doc_lengths.map (fun e => natToChars e.1 ++ ',' :: format6 e.2) }

/-- The input directory of `Indexer.load_index`: each file is `none` when
missing (opening it raises `IOError`). -/
structure LoadFiles where
  documents : Option (List (List Char))
  terms : Option (List (List Char))
  postings : Option (List (List Char))
  doc_lengths : Option (List (List Char))
deriving Repr, DecidableEq

/-- A just-saved directory presented to `load_index`. -/
def SavedFiles.toLoad (fs : SavedFiles) : LoadFiles :=
  ⟨some fs.documents, some fs.terms, some fs.postings, some fs.doc_lengths⟩

/-- One line of `documents.dat` or `terms.dat`:
`name, id = line.strip().split(',')` then `int(id)`; a line that does not
split into exactly two fields, or whose id is not a decimal numeral,
raises (`none`). -/
def parseNameIdLine (l : List Char) : Option (List Char × Nat) :=
  match splitOnChar ',' (pyStrip l) with
  | [p, d] => (charsToNat? d).map (fun n => (p, n))
  | _ => none

/-- One line of `postings.dat`: six comma-separated fields
`term_id,doc_id,tf_idf,tf,idf,df`. -/
def parsePostingLine (l : List Char) : Option (Nat × Nat × Posting) :=
  match splitOnChar ',' (pyStrip l) with
  | [tid, did, tfidf, tf, idf, df] => do
    let tid2 ← charsToNat? tid
    let did2 ← charsToNat? did
    let v1 ← parseFloat? tfidf
    let tf2 ← charsToNat? tf
    let v2 ← parseFloat? idf
    let df2 ← charsToNat? df
    pure (tid2, did2, {tf := tf2, tf_idf := some v1, idf := some v2, df := some df2})
  | _ => none

/-- One line of `doc_lengths.dat`: `doc_id,length`. -/
def parseLenLine (l : List Char) : Option (Nat × ℚ) :=
  match splitOnChar ',' (pyStrip l) with
  | [d, len] => do
    let d2 ← charsToNat? d
    let v ← parseFloat? len
    pure (d2, v)
  | _ => none

/-- The per-line reading loop of `load_index` for one file: parsed records
in order up to the first bad line; the flag records whether every line
parsed (a bad line raises, aborting the load with the lines before it
already inserted). -/
def parseLines {α : Type} (parse : List Char → Option α) :
    List (List Char) → List α × Bool
  | [] => ([], true)
  | l :: ls =>
    match parse l with
    | none => ([], false)
    | some a =>
      let r := parseLines parse ls
      (a :: r.1, r.2)

/-- One parsed posting line applied to the two-level postings dict:
`self.postings[term_id][doc_id] = {...}` (the inner dict defaults to `{}`
for a new `term_id`). -/
def postingsInsert (ps : List (Nat × List (Nat × Posting))) (e : Nat × Nat × Posting) :
    List (Nat × List (Nat × Posting)) :=
  dictSet ps e.1 (dictSet (dictGetD ps e.1 []) e.2.1 e.2.2)

/-- Rebuild the two-level postings dict from parsed posting lines in line
order. -/
def buildPostingsDict (l : List (Nat × Nat × Posting)) :
    List (Nat × List (Nat × Posting)) :=
  l.foldl postingsInsert []

/-- Python `max(d.values())` for a dict with natural-number values. -/
def pyMaxSnd {α : Type} (l : List (α × Nat)) : Nat :=
  (l.map Prod.snd).foldl max 0

/-- The `Indexer.load_index` method (lines 301-360 of `indexer.py`).  Each
table is cleared *before* its file is opened, and a failure (missing file or
bad line) returns `false` from inside the `except` handler with every table
processed so far already overwritten; the id counters and totals are
updated only after all four files load. -/
def Indexer.load_index (ix : Indexer) (fs : LoadFiles) : Indexer × Bool :=
  let ix := {ix with documents := [], documents_inv := []}
  match fs.documents with
  | none => (ix, false)
  | some ls =>
    let r := parseLines parseNameIdLine ls
    let ix := {ix with documents := buildDict r.1,
                       documents_inv := buildDict (r.1.map (fun e => (e.2, e.1)))}
    if !r.2 then (ix, false)
    else
      let ix := {ix with terms := [], terms_inv := []}
      match fs.terms with
      | none => (ix, false)
      | some ls2 =>
        let r2 := parseLines parseNameIdLine ls2
        let ix := {ix with terms := buildDict r2.1,
                           terms_inv := buildDict (r2.1.map (fun e => (e.2, e.1)))}
        if !r2.2 then (ix, false)
        else
          let ix := {ix with postings := []}
          match fs.postings with
          | none => (ix, false)
          | some ls3 =>
            let r3 := parseLines parsePostingLine ls3
            let ix := {ix with postings := buildPostingsDict r3.1}
            if !r3.2 then (ix, false)
            else
              let ix := {ix with doc_lengths := []}
              match fs.doc_lengths with
              | none => (ix, false)
              | some ls4 =>
                let r4 := parseLines parseLenLine ls4
                let ix := {ix with doc_lengths := buildDict r4.1}
                if !r4.2 then (ix, false)
                else
                  ({ix with
                      next_doc_id := if ix.documents.isEmpty then 1 else pyMaxSnd ix.documents + 1,
                      next_term_id := if ix.terms.isEmpty then 1 else pyMaxSnd ix.terms + 1,
                      total_docs := ix.documents.length,
                      total_terms := ix.terms.length}, true)

/-- The float value Python recovers from a `{x:.6f}`-formatted field:
`x` rounded to six decimal places, half to even. -/
def round6 (q : ℚ) : ℚ :=
  ((divRoundHalfEven (q.num * 1000000) (q.den : ℤ) : ℤ) : ℚ) / 1000000

/-- The posting record as it re-emerges from a save/load cycle: `tf`
survives exactly, the `.get(key, 0)` defaults of the saver become stored
values, and the float fields come back rounded to six decimals. -/
def loadedPosting (po : Posting) : Posting :=
  { tf := po.tf, tf_idf := some (round6 (po.tf_idf.getD 0)),
    idf := some (round6 (po.idf.getD 0)), df := some (po.df.getD 0) }

/-- A small concrete index with all four tables non-empty, used to witness
the save/load round trip. -/
def rtIx : Indexer :=
  { emptyIndexer with
      documents := [("docs/a.txt".toList, 1)],
      terms := [("crawler".toList, 1)],
      postings := [(1, [(1, {tf := 2, tf_idf := some 0, idf := some 0, df := some 1})])],
      doc_lengths := [(1, 1)] }

/-! ### Dictionary lemmas -/

theorem dictGet?_nil {α β : Type} [DecidableEq α] (k : α) :
    dictGet? ([] : List (α × β)) k = none := by
  simp [dictGet?]

theorem dictGet?_cons {α β : Type} [DecidableEq α] (a : α) (b : β) (d : List (α × β)) (k : α) :
    dictGet? ((a, b) :: d) k = if a = k then some b else dictGet? d k := by
  by_cases h : a = k <;> simp [dictGet?, h]

theorem dictGet?_dictSet {α β : Type} [DecidableEq α] (d : List (α × β)) (k k' : α) (v : β) :
    dictGet? (dictSet d k v) k' = if k' = k then some v else dictGet? d k' := by
  induction d with
  | nil =>
    by_cases h : k' = k
    · subst h; simp [dictSet, dictGet?_cons]
    · have h' : ¬ k = k' := fun hh => h hh.symm
      simp [dictSet, dictGet?_cons, dictGet?_nil, h, h']
  | cons e rest ih =>
    obtain ⟨ek, ev⟩ := e
    by_cases hek : ek = k
    · subst hek
      by_cases h : k' = ek
      · subst h; simp [dictSet, dictGet?_cons]
      · have h' : ¬ ek = k' := fun hh => h hh.symm
        simp [dictSet, dictGet?_cons, h, h']
    · by_cases h : ek = k'
      · have h2 : ¬ k' = k := fun hh => hek (h.trans hh)
        simp [dictSet, hek, dictGet?_cons, h, h2]
      · by_cases h3 : k' = k
        · subst h3; simp [dictSet, hek, dictGet?_cons, h, ih]
        · simp [dictSet, hek, dictGet?_cons, h, h3, ih]

theorem dictSet_fresh {α β : Type} [DecidableEq α] (d : List (α × β)) (k : α) (v : β)
    (h : k ∉ d.map Prod.fst) : dictSet d k v = d ++ [(k, v)] := by
  induction d with
  | nil => simp [dictSet]
  | cons e rest ih =>
    simp only [List.map_cons, List.mem_cons] at h
    push_neg at h
    simp [dictSet, Ne.symm h.1, ih h.2]

/-! ### Scoring-pass lemmas -/

theorem calcTfIdfPostings_pos (log : ℚ → ℚ) (N : Nat) (hN : 0 < N)
    (ps : List (Nat × List (Nat × Posting))) :
    calcTfIdfPostings log N ps = some (ps.map (fun g =>
      (g.1, g.2.map (fun e => (e.1,
        {e.2 with tf_idf := some ((e.2.tf : ℚ) * log ((N : ℚ) / (g.2.length : ℚ))),
                  idf := some (log ((N : ℚ) / (g.2.length : ℚ))),
                  df := some g.2.length}))))) := by
  induction ps with
  | nil => simp [calcTfIdfPostings]
  | cons g rest ih =>
    obtain ⟨tid, dps⟩ := g
    by_cases hdf : dps.length = 0
    · have hnil : dps = [] := List.eq_nil_of_length_eq_zero hdf
      subst hnil
      simp [calcTfIdfPostings, ih]
    · have hpos : (0 : ℚ) < (N : ℚ) / (dps.length : ℚ) := by
        apply div_pos
        · exact_mod_cast hN
        · exact_mod_cast Nat.pos_of_ne_zero hdf
      simp [calcTfIdfPostings, hdf, mathLog, not_le.mpr hpos, ih]

/-- C4: for every postings table and document count `N > 0`, the scoring
pass succeeds and stores, on every posting of a term with `df > 0` distinct
posting documents, `idf = log (N / df)`, `tf_idf = tf * idf` and `df`; a
term with a posting in every document (`df = N`) receives `idf = 0`
(for the natural logarithm, `log 1 = 0`). -/
theorem tf_idf_scoring_formulas (log : ℚ → ℚ) (N : Nat)
    (ps : List (Nat × List (Nat × Posting)))
    (hN : 0 < N) (hlog1 : log 1 = 0) :
    ∃ ps', calcTfIdfPostings log N ps = some ps' ∧
      ps'.length = ps.length ∧
      ∀ g ∈ ps',
        (0 < g.2.length →
          ∀ e ∈ g.2, e.2.idf = some (log ((N : ℚ) / (g.2.length : ℚ))) ∧
            e.2.tf_idf = some ((e.2.tf : ℚ) * log ((N : ℚ) / (g.2.length : ℚ))) ∧
            e.2.df = some g.2.length) ∧
        (g.2.length = N → ∀ e ∈ g.2, e.2.idf = some 0) := by
  refine ⟨_, calcTfIdfPostings_pos log N hN ps, by simp, ?_⟩
  intro g hg
  simp only [List.mem_map] at hg
  obtain ⟨g₀, hg₀, rfl⟩ := hg
  constructor
  · intro _ e he
    simp only [List.mem_map] at he
    obtain ⟨e₀, he₀, rfl⟩ := he
    simp
  · intro hlen e he
    simp only [List.length_map] at hlen
    obtain ⟨e₀, he₀, rfl⟩ := List.mem_map.mp he
    have hone : ((N : ℚ) / ((g₀.2.map (fun e => (e.1,
        {e.2 with tf_idf := some ((e.2.tf : ℚ) * log ((N : ℚ) / (g₀.2.length : ℚ))),
                  idf := some (log ((N : ℚ) / (g₀.2.length : ℚ))),
                  df := some g₀.2.length}))).length : ℚ)) = 1 := by
      rw [List.length_map, hlen]
      exact div_self (by exact_mod_cast hN.ne')
    simp only [List.length_map, hlen] at hone ⊢
    have : log ((N : ℚ) / (N : ℚ)) = 0 := by
      rw [div_self (by exact_mod_cast hN.ne' : (N : ℚ) ≠ 0)]
      exact hlog1
    simp [this]

/-- C4 witness: a concrete scoring run (two documents, one term present in
both) satisfying the hypotheses of `tf_idf_scoring_formulas`. -/
theorem tf_idf_scoring_formulas_witness :
    0 < 2 ∧ (fun _ : ℚ => (0 : ℚ)) 1 = 0 ∧
    ∃ ps', calcTfIdfPostings (fun _ => 0) 2 [(1, [(1, {tf := 3}), (2, {tf := 1})])] = some ps' ∧
      ps'.length = [(1, [(1, ({tf := 3} : Posting)), (2, {tf := 1})])].length ∧
      ∀ g ∈ ps',
        (0 < g.2.length →
          ∀ e ∈ g.2, e.2.idf = some ((fun _ : ℚ => (0 : ℚ)) ((2 : ℚ) / (g.2.length : ℚ))) ∧
            e.2.tf_idf = some ((e.2.tf : ℚ) * (fun _ : ℚ => (0 : ℚ)) ((2 : ℚ) / (g.2.length : ℚ))) ∧
            e.2.df = some g.2.length) ∧
        (g.2.length = 2 → ∀ e ∈ g.2, e.2.idf = some 0) := by
  refine ⟨by decide, rfl, ?_⟩
  have h := tf_idf_scoring_formulas (fun _ => 0) 2 [(1, [(1, {tf := 3}), (2, {tf := 1})])]
    (by decide) rfl
  simpa using h

/-- C5 counterexample: with `N = 0` and a non-empty postings table the
scoring pass does not return; it evaluates `0 / df = 0` and `math.log(0)`
raises `ValueError` — there is no `N == 0` short-circuit in the code. -/
theorem tf_idf_zero_docs_cex :
    calcTfIdfPostings (fun _ => 0) 0 [(1, [(1, {tf := 1})])] = none := by
  simp [calcTfIdfPostings, mathLog]

/-- C5 amended: the scoring pass with `N = 0` returns the postings unscored
only when every term's posting dict is empty (in particular for the empty
table of a crawl that processed no documents); any term with `df > 0` makes
it raise instead, because `math.log(0 / df) = math.log(0)` is a domain
error (the division itself succeeds). -/
theorem tf_idf_zero_docs_behavior (log : ℚ → ℚ) (ps : List (Nat × List (Nat × Posting))) :
    calcTfIdfPostings log 0 ps =
      if ps.all (fun g => g.2.isEmpty) then some ps else none := by
  induction ps with
  | nil => simp [calcTfIdfPostings]
  | cons g rest ih =>
    obtain ⟨tid, dps⟩ := g
    by_cases h : dps.length = 0
    · have hnil : dps = [] := List.eq_nil_of_length_eq_zero h
      subst hnil
      simp only [calcTfIdfPostings, List.length_nil, if_pos rfl, ih, List.all_cons]
      by_cases hall : rest.all (fun g => g.2.isEmpty) <;> simp [hall]
    · have hle : ((0 : Nat) : ℚ) / (dps.length : ℚ) ≤ 0 := by simp
      have hne : dps.isEmpty = false := by
        cases dps with
        | nil => exact absurd rfl h
        | cons a l => rfl
      simp [calcTfIdfPostings, h, mathLog, hle, List.all_cons, hne]

/-! ### Document-length lemmas -/

theorem calcDocLengthsAux_notmem (sqrt : ℚ → ℚ) (P : List (Nat × List (Nat × Posting))) :
    ∀ (inv : List (Nat × List Char)) (dl dl' : List (Nat × ℚ)),
      calcDocLengthsAux sqrt P inv dl = some dl' →
      ∀ did, (∀ p, (did, p) ∉ inv) → dictGet? dl' did = dictGet? dl did := by
  intro inv
  induction inv with
  | nil =>
    intro dl dl' h did _
    simp only [calcDocLengthsAux, Option.some.injEq] at h
    rw [h]
  | cons e rest ih =>
    intro dl dl' h did hnot
    obtain ⟨did0, p0⟩ := e
    simp only [calcDocLengthsAux] at h
    cases hsq : docLengthSq P did0 with
    | none => rw [hsq] at h; exact absurd h (by simp)
    | some sq =>
      rw [hsq] at h
      have hne : did ≠ did0 := by
        intro hh
        exact hnot p0 (by simp [hh])
      have hrest : ∀ p, (did, p) ∉ rest := fun p hp => hnot p (List.mem_cons_of_mem _ hp)
      rw [ih _ _ h did hrest, dictGet?_dictSet]
      simp [hne]

theorem calcDocLengthsAux_mem (sqrt : ℚ → ℚ) (P : List (Nat × List (Nat × Posting))) :
    ∀ (inv : List (Nat × List Char)) (dl dl' : List (Nat × ℚ)),
      calcDocLengthsAux sqrt P inv dl = some dl' →
      ∀ did p, (did, p) ∈ inv →
        ∃ sq, docLengthSq P did = some sq ∧
          dictGet? dl' did = some (if 0 < sq then sqrt sq else 1) := by
  intro inv
  induction inv with
  | nil => intro dl dl' h did p hmem; exact absurd hmem (List.not_mem_nil _)
  | cons e rest ih =>
    intro dl dl' h did p hmem
    obtain ⟨did0, p0⟩ := e
    simp only [calcDocLengthsAux] at h
    cases hsq : docLengthSq P did0 with
    | none => rw [hsq] at h; exact absurd h (by simp)
    | some sq =>
      rw [hsq] at h
      rcases List.mem_cons.mp hmem with heq | hmem'
      · obtain ⟨rfl, rfl⟩ : did = did0 ∧ p = p0 := Prod.mk.injEq .. ▸ heq |> fun hh => by
          exact ⟨congrArg Prod.fst heq, congrArg Prod.snd heq⟩
        by_cases hrest : ∃ p', (did, p') ∈ rest
        · obtain ⟨p', hp'⟩ := hrest
          exact ih _ _ h did p' hp'
        · push_neg at hrest
          refine ⟨sq, hsq, ?_⟩
          rw [calcDocLengthsAux_notmem sqrt P rest _ _ h did hrest, dictGet?_dictSet]
          simp
      · exact ih _ _ h did p hmem'

/-- C6: within the document-length computation, every document of
`documents_inv` whose accumulated TF-IDF mass is zero is assigned length
exactly `1.0` in `doc_lengths`. -/
theorem doc_length_zero_mass (sqrt : ℚ → ℚ) (ix ix' : Indexer) (did : Nat) (path : List Char)
    (hmem : (did, path) ∈ ix.documents_inv)
    (hrun : ix.calculate_document_lengths sqrt = some ix')
    (hzero : docLengthSq ix.postings did = some 0) :
    dictGet? ix'.doc_lengths did = some 1 := by
  unfold Indexer.calculate_document_lengths at hrun
  cases hgo : calcDocLengthsAux sqrt ix.postings ix.documents_inv ix.doc_lengths with
  | none => rw [hgo] at hrun; exact absurd hrun (by simp)
  | some dl' =>
    rw [hgo] at hrun
    simp only [Option.map_some', Option.some.injEq] at hrun
    obtain ⟨sq, hsq, hget⟩ :=
      calcDocLengthsAux_mem sqrt ix.postings ix.documents_inv ix.doc_lengths dl' hgo did path hmem
    rw [hzero] at hsq
    obtain rfl : (0 : ℚ) = sq := Option.some.injEq .. ▸ hsq |> fun hh => by
      injection hsq
    rw [← hrun]
    simpa [lt_irrefl] using hget

/-- C6 witness: a one-document index with no postings gets length `1`. -/
theorem doc_length_zero_mass_witness :
    ((1, "d".toList) ∈ ({emptyIndexer with documents_inv := [(1, "d".toList)]} : Indexer).documents_inv) ∧
    docLengthSq ({emptyIndexer with documents_inv := [(1, "d".toList)]} : Indexer).postings 1 = some 0 ∧
    ∃ ix', Indexer.calculate_document_lengths (fun q => q)
        {emptyIndexer with documents_inv := [(1, "d".toList)]} = some ix' ∧
      dictGet? ix'.doc_lengths 1 = some 1 := by
  refine ⟨by decide, rfl, ?_⟩
  cases hrun : Indexer.calculate_document_lengths (fun q => q)
      {emptyIndexer with documents_inv := [(1, "d".toList)]} with
  | none =>
    exfalso
    revert hrun
    simp [Indexer.calculate_document_lengths, calcDocLengthsAux, docLengthSq, docLengthSqAux]
  | some ix' =>
    exact ⟨ix', rfl, doc_length_zero_mass (fun q => q) _ ix' 1 "d".toList (by decide) hrun rfl⟩

/-! ### Crawler process_document effect lemmas -/

theorem crawlAddTerm_fold_inv (doc_id : Nat) (l : List (List Char × Nat)) :
    ∀ p : Indexer × CrawlerStats,
      (l.foldl (crawlAddTerm doc_id) p).1.documents = p.1.documents ∧
      (l.foldl (crawlAddTerm doc_id) p).1.documents_inv = p.1.documents_inv ∧
      (l.foldl (crawlAddTerm doc_id) p).1.doc_lengths = p.1.doc_lengths ∧
      (l.foldl (crawlAddTerm doc_id) p).1.next_doc_id = p.1.next_doc_id ∧
      (l.foldl (crawlAddTerm doc_id) p).2.documents_processed = p.2.documents_processed ∧
      (l.foldl (crawlAddTerm doc_id) p).2.urls_crawled = p.2.urls_crawled ∧
      (l.foldl (crawlAddTerm doc_id) p).2.urls_in_frontier = p.2.urls_in_frontier := by
  induction l with
  | nil => intro p; exact ⟨rfl, rfl, rfl, rfl, rfl, rfl, rfl⟩
  | cons e rest ih =>
    intro p
    have hstep : (crawlAddTerm doc_id p e).1.documents = p.1.documents ∧
        (crawlAddTerm doc_id p e).1.documents_inv = p.1.documents_inv ∧
        (crawlAddTerm doc_id p e).1.doc_lengths = p.1.doc_lengths ∧
        (crawlAddTerm doc_id p e).1.next_doc_id = p.1.next_doc_id ∧
        (crawlAddTerm doc_id p e).2.documents_processed = p.2.documents_processed ∧
        (crawlAddTerm doc_id p e).2.urls_crawled = p.2.urls_crawled ∧
        (crawlAddTerm doc_id p e).2.urls_in_frontier = p.2.urls_in_frontier := by
      unfold crawlAddTerm
      by_cases hm : dictMem p.1.terms e.1 <;> simp [hm]
    have h := ih (crawlAddTerm doc_id p e)
    simp only [List.foldl_cons]
    exact ⟨h.1.trans hstep.1, h.2.1.trans hstep.2.1, h.2.2.1.trans hstep.2.2.1,
      h.2.2.2.1.trans hstep.2.2.2.1, h.2.2.2.2.1.trans hstep.2.2.2.2.1,
      h.2.2.2.2.2.1.trans hstep.2.2.2.2.2.1, h.2.2.2.2.2.2.trans hstep.2.2.2.2.2.2⟩

theorem crawlProcessToken_fold_stats (stem : List Char → List Char) (tokens : List (List Char)) :
    ∀ st : CrawlerStats × List (List Char × Nat),
      (tokens.foldl (crawlProcessToken stem) st).1.documents_processed = st.1.documents_processed ∧
      (tokens.foldl (crawlProcessToken stem) st).1.urls_crawled = st.1.urls_crawled ∧
      (tokens.foldl (crawlProcessToken stem) st).1.urls_in_frontier = st.1.urls_in_frontier := by
  induction tokens with
  | nil => intro st; exact ⟨rfl, rfl, rfl⟩
  | cons t ts ih =>
    intro st
    have hstep : (crawlProcessToken stem st t).1.documents_processed = st.1.documents_processed ∧
        (crawlProcessToken stem st t).1.urls_crawled = st.1.urls_crawled ∧
        (crawlProcessToken stem st t).1.urls_in_frontier = st.1.urls_in_frontier := by
      unfold crawlProcessToken
      by_cases h1 : (normalize_token t).isEmpty <;>
        by_cases h2 : is_stop_word (normalize_token t) <;>
        by_cases h3 : starts_with_punctuation (normalize_token t) <;>
        by_cases h4 : is_short (normalize_token t) <;>
        by_cases h5 : is_number (normalize_token t) <;>
        simp [h1, h2, h3, h4, h5]
    have h := ih (crawlProcessToken stem st t)
    simp only [List.foldl_cons]
    exact ⟨h.1.trans hstep.1, h.2.1.trans hstep.2.1, h.2.2.trans hstep.2.2⟩

theorem process_document_effects (stem : List Char → List Char) (wc : WebCrawler)
    (url text : List Char) :
    (wc.process_document stem url text).indexer.documents =
      dictSet wc.indexer.documents url wc.indexer.next_doc_id ∧
    (wc.process_document stem url text).indexer.documents_inv = wc.indexer.documents_inv ∧
    (wc.process_document stem url text).indexer.doc_lengths = wc.indexer.doc_lengths ∧
    (wc.process_document stem url text).indexer.next_doc_id = wc.indexer.next_doc_id + 1 ∧
    (wc.process_document stem url text).stats.documents_processed =
      wc.stats.documents_processed + 1 ∧
    (wc.process_document stem url text).stats.urls_crawled = wc.stats.urls_crawled ∧
    (wc.process_document stem url text).stats.urls_in_frontier = wc.stats.urls_in_frontier ∧
    (wc.process_document stem url text).max_urls = wc.max_urls ∧
    (wc.process_document stem url text).max_depth = wc.max_depth := by
  unfold WebCrawler.process_document
  have hfold := crawlAddTerm_fold_inv wc.indexer.next_doc_id
    ((splitchars text).foldl (crawlProcessToken stem) (wc.stats, [])).2
    ({wc.indexer with documents := dictSet wc.indexer.documents url wc.indexer.next_doc_id,
                      next_doc_id := wc.indexer.next_doc_id + 1},
     ((splitchars text).foldl (crawlProcessToken stem) (wc.stats, [])).1)
  have htok := crawlProcessToken_fold_stats stem (splitchars text) (wc.stats, [])
  refine ⟨hfold.1, hfold.2.1, hfold.2.2.1, hfold.2.2.2.1, ?_, ?_, ?_, rfl, rfl⟩
  · simp only [hfold.2.2.2.2.1, htok.1]
  · simp only [hfold.2.2.2.2.2.1, htok.2.1]
  · simp only [hfold.2.2.2.2.2.2, htok.2.2]

/-- C1 (code-bug evaluation at the failing input): a two-page crawl — two
`WebCrawler.process_document` calls followed by the TF-IDF pass, exactly as
`WebCrawler.crawl` and `WebCrawler.save_index` run them — yields a
`documents` table with two entries but an *empty* `documents_inv` (the
crawler's `process_document` never fills it in), so
`calculate_document_lengths` iterates over nothing and `doc_lengths` stays
empty instead of receiving one row per document. -/
theorem crawler_doc_lengths_missing (stem : List Char → List Char) (log sq : ℚ → ℚ)
    (t1 t2 : List Char) :
    ∃ wc3, WebCrawler.calculate_tf_idf log
        (WebCrawler.process_document stem
          (WebCrawler.process_document stem (WebCrawler.init 10 5) "http://a".toList t1)
          "http://b".toList t2) = some wc3 ∧
      wc3.indexer.documents.length = 2 ∧
      wc3.indexer.documents_inv = [] ∧
      wc3.indexer.doc_lengths = [] ∧
      wc3.indexer.calculate_document_lengths sq = some wc3.indexer := by
  have e1 := process_document_effects stem (WebCrawler.init 10 5) "http://a".toList t1
  set wc1 := WebCrawler.process_document stem (WebCrawler.init 10 5) "http://a".toList t1 with hw1
  have e2 := process_document_effects stem wc1 "http://b".toList t2
  set wc2 := WebCrawler.process_document stem wc1 "http://b".toList t2 with hw2
  have hdocs : wc2.indexer.documents = [("http://a".toList, 1), ("http://b".toList, 2)] := by
    rw [e2.1, e1.2.2.2.1, e1.1]
    decide
  have hinv : wc2.indexer.documents_inv = [] := by
    rw [e2.2.1, e1.2.1]
    rfl
  have hdl : wc2.indexer.doc_lengths = [] := by
    rw [e2.2.2.1, e1.2.2.1]
    rfl
  have hdp : wc2.stats.documents_processed = 2 := by
    rw [e2.2.2.2.2.1, e1.2.2.2.2.1]
    rfl
  unfold WebCrawler.calculate_tf_idf
  rw [hdp, calcTfIdfPostings_pos log 2 (by norm_num) wc2.indexer.postings]
  simp only [Option.map_some']
  refine ⟨_, rfl, ?_, ?_, ?_, ?_⟩
  · simpa using congrArg List.length hdocs
  · simpa using hinv
  · simpa using hdl
  · simp only [Indexer.calculate_document_lengths]
    have hinv' : ({wc2.indexer with postings := wc2.indexer.postings.map (fun g =>
        (g.1, g.2.map (fun e => (e.1,
          {e.2 with tf_idf := some ((e.2.tf : ℚ) * log ((2 : ℚ) / (g.2.length : ℚ))),
                    idf := some (log ((2 : ℚ) / (g.2.length : ℚ))),
                    df := some g.2.length}))))} : Indexer).documents_inv = [] := hinv
    rw [hinv']
    rfl

/-! ### Tokenization lemmas -/

theorem splitcharsAux_tokens (s : List Char) :
    ∀ cur : List Char, (∀ c ∈ cur, isAlnumChar c = true) →
      ∀ t ∈ splitcharsAux s cur, t ≠ [] ∧ ∀ c ∈ t, isAlnumChar c = true := by
  induction s with
  | nil =>
    intro cur hcur t ht
    by_cases h : cur.isEmpty
    · simp [splitcharsAux, h] at ht
    · simp only [splitcharsAux, h, if_neg, Bool.false_eq_true, if_false, List.mem_singleton] at ht
      subst ht
      refine ⟨fun hh => h ?_, fun c hc => hcur c (List.mem_reverse.mp hc)⟩
      simpa [List.isEmpty_iff] using congrArg List.reverse hh
  | cons c rest ih =>
    intro cur hcur t ht
    by_cases hal : isAlnumChar c
    · simp only [splitcharsAux, hal, if_pos] at ht
      exact ih (c :: cur) (by
        intro x hx
        rcases List.mem_cons.mp hx with rfl | hx'
        · exact hal
        · exact hcur x hx') t ht
    · by_cases hemp : cur.isEmpty
      · simp only [splitcharsAux, hal, Bool.false_eq_true, if_false, hemp, if_pos] at ht
        exact ih [] (by intro x hx; cases hx) t ht
      · simp only [splitcharsAux, hal, Bool.false_eq_true, if_false, hemp,
          List.mem_cons] at ht
        rcases ht with rfl | ht'
        · refine ⟨fun hh => hemp ?_, fun x hx => hcur x (List.mem_reverse.mp hx)⟩
          simpa [List.isEmpty_iff] using congrArg List.reverse hh
        · exact ih [] (by intro x hx; cases hx) t ht'

theorem splitchars_tokens (s : List Char) :
    ∀ t ∈ splitchars s, t ≠ [] ∧ ∀ c ∈ t, isAlnumChar c = true :=
  splitcharsAux_tokens s [] (by intro c hc; cases hc)

theorem alnum_not_space (c : Char) (h : isAlnumChar c = true) : isPySpace c = false := by
  have hall : ∀ x ∈ pySpaceChars, isAlnumChar x = false := by decide
  cases hmem : isPySpace c with
  | false => rfl
  | true =>
    have : c ∈ pySpaceChars := by simpa [isPySpace] using hmem
    rw [hall c this] at h
    cases h

theorem alnum_not_punct (c : Char) (h : isAlnumChar c = true) :
    pyPunctuation.contains c = false := by
  have hall : ∀ x ∈ pyPunctuation, isAlnumChar x = false := by decide
  cases hmem : pyPunctuation.contains c with
  | false => rfl
  | true =>
    have : c ∈ pyPunctuation := by simpa using hmem
    rw [hall c this] at h
    cases h

theorem pyLower_alnum (c : Char) (h : isAlnumChar c = true) :
    isAlnumChar (pyLower c) = true := by
  unfold pyLower
  cases hf : asciiUpperLower.find? (fun p => p.1 = c) with
  | none => exact h
  | some p =>
    have hp : p ∈ asciiUpperLower := List.mem_of_find?_eq_some hf
    have hall : ∀ q ∈ asciiUpperLower, isAlnumChar q.2 = true := by decide
    exact hall p hp

theorem pyStrip_of_no_space (l : List Char) (h : ∀ c ∈ l, isPySpace c = false) :
    pyStrip l = l := by
  have h1 : l.dropWhile isPySpace = l := by
    cases l with
    | nil => rfl
    | cons c rest => simp [List.dropWhile_cons, h c (by simp)]
  have h2 : l.reverse.dropWhile isPySpace = l.reverse := by
    cases hr : l.reverse with
    | nil => rfl
    | cons c rest =>
      have hc : c ∈ l := by
        rw [← List.mem_reverse, hr]
        simp
      simp [List.dropWhile_cons, h c hc]
  unfold pyStrip
  rw [h1, h2, List.reverse_reverse]

/-- Facts about the normalized form of a `splitchars` token: it is the
lowercased token, non-empty, all alphanumeric, and its first character is
not punctuation. -/
theorem normalize_token_of_alnum (t : List Char) (hne : t ≠ [])
    (hal : ∀ c ∈ t, isAlnumChar c = true) :
    normalize_token t = t.map pyLower ∧ normalize_token t ≠ [] ∧
      starts_with_punctuation (normalize_token t) = false := by
  have hmap : ∀ c ∈ t.map pyLower, isAlnumChar c = true := by
    intro c hc
    obtain ⟨c₀, hc₀, rfl⟩ := List.mem_map.mp hc
    exact pyLower_alnum c₀ (hal c₀ hc₀)
  have hstrip : normalize_token t = t.map pyLower :=
    pyStrip_of_no_space (t.map pyLower) (fun c hc => alnum_not_space c (hmap c hc))
  refine ⟨hstrip, ?_, ?_⟩
  · rw [hstrip]
    simpa using hne
  · rw [hstrip]
    cases hm : t.map pyLower with
    | nil => simp [hm] at hstrip; exact absurd (by simpa using hm) hne
    | cons c rest =>
      have hc : isAlnumChar c = true := hmap c (by rw [hm]; simp)
      have hnp : c ∉ pyPunctuation := by
        simpa using alnum_not_punct c hc
      simp [starts_with_punctuation, hnp]

/-! ### Filter-counter lemmas -/

theorem processToken_fold_counts (stem : List Char → List Char) (tokens : List (List Char)) :
    ∀ st : IndexerStats × List (List Char × Nat),
      (tokens.foldl (processToken stem) st).1.stop_words_matched =
        st.1.stop_words_matched + tokens.countP (fun t =>
          !(normalize_token t).isEmpty && is_stop_word (normalize_token t)) ∧
      (tokens.foldl (processToken stem) st).1.short_words_ignored =
        st.1.short_words_ignored + tokens.countP (fun t =>
          !(normalize_token t).isEmpty && !is_stop_word (normalize_token t) &&
          !starts_with_punctuation (normalize_token t) && is_short (normalize_token t)) ∧
      (tokens.foldl (processToken stem) st).1.punctuation_words_ignored =
        st.1.punctuation_words_ignored + tokens.countP (fun t =>
          !(normalize_token t).isEmpty && !is_stop_word (normalize_token t) &&
          starts_with_punctuation (normalize_token t)) := by
  induction tokens with
  | nil => intro st; simp
  | cons t ts ih =>
    intro st
    have hstep : (processToken stem st t).1.stop_words_matched =
        st.1.stop_words_matched + (if (!(normalize_token t).isEmpty &&
          is_stop_word (normalize_token t)) = true then 1 else 0) ∧
        (processToken stem st t).1.short_words_ignored =
        st.1.short_words_ignored + (if (!(normalize_token t).isEmpty &&
          !is_stop_word (normalize_token t) && !starts_with_punctuation (normalize_token t) &&
          is_short (normalize_token t)) = true then 1 else 0) ∧
        (processToken stem st t).1.punctuation_words_ignored =
        st.1.punctuation_words_ignored + (if (!(normalize_token t).isEmpty &&
          !is_stop_word (normalize_token t) &&
          starts_with_punctuation (normalize_token t)) = true then 1 else 0) := by
      unfold processToken
      by_cases h1 : (normalize_token t).isEmpty <;>
        by_cases h2 : is_stop_word (normalize_token t) <;>
        by_cases h3 : starts_with_punctuation (normalize_token t) <;>
        by_cases h4 : is_short (normalize_token t) <;>
        by_cases h5 : is_number (normalize_token t) <;>
        simp [h1, h2, h3, h4, h5]
    have h := ih (processToken stem st t)
    simp only [List.foldl_cons, List.countP_cons]
    refine ⟨?_, ?_, ?_⟩
    · rw [h.1, hstep.1]; omega
    · rw [h.2.1, hstep.2.1]; omega
    · rw [h.2.2, hstep.2.2]; omega

theorem addTermPostings_inv (doc_id : Nat) (tf : List (List Char × Nat)) :
    ∀ ix : Indexer, (addTermPostings ix doc_id tf).stats = ix.stats ∧
      (addTermPostings ix doc_id tf).documents = ix.documents ∧
      (addTermPostings ix doc_id tf).documents_inv = ix.documents_inv ∧
      (addTermPostings ix doc_id tf).doc_lengths = ix.doc_lengths ∧
      (addTermPostings ix doc_id tf).next_doc_id = ix.next_doc_id := by
  induction tf with
  | nil => intro ix; exact ⟨rfl, rfl, rfl, rfl, rfl⟩
  | cons e rest ih =>
    intro ix
    have hunf : addTermPostings ix doc_id (e :: rest) =
        addTermPostings (indexAddTerm doc_id ix e) doc_id rest := rfl
    rw [hunf]
    have h := ih (indexAddTerm doc_id ix e)
    have hstep : (indexAddTerm doc_id ix e).stats = ix.stats ∧
        (indexAddTerm doc_id ix e).documents = ix.documents ∧
        (indexAddTerm doc_id ix e).documents_inv = ix.documents_inv ∧
        (indexAddTerm doc_id ix e).doc_lengths = ix.doc_lengths ∧
        (indexAddTerm doc_id ix e).next_doc_id = ix.next_doc_id := by
      unfold indexAddTerm
      by_cases hm : dictMem ix.terms e.1 <;> simp [hm]
    exact ⟨h.1.trans hstep.1, h.2.1.trans hstep.2.1, h.2.2.1.trans hstep.2.2.1,
      h.2.2.2.1.trans hstep.2.2.2.1, h.2.2.2.2.trans hstep.2.2.2.2⟩

theorem process_document_from_text_stats (stem : List Char → List Char) (ix : Indexer)
    (text path : List Char) :
    (Indexer.process_document_from_text stem ix text path).1.stats =
      ((splitchars text).foldl (processToken stem) (ix.stats, [])).1 := by
  unfold Indexer.process_document_from_text
  exact (addTermPostings_inv _ _ _).1

/-- C7: in `Indexer.process_document_from_text` the stop-word check runs
before the length check: the stop-word counter counts every non-empty
normalized token in the stop set (short or not), while the short-word
counter counts only tokens that are *not* stop words (and not
punctuation-initial); in particular processing the text `"a"` — a stop word
of length 1 — increments the stop-word counter by one and leaves the
short-word counter unchanged. -/
theorem stop_filter_before_short_filter (stem : List Char → List Char) (ix : Indexer)
    (text path : List Char) :
    ((Indexer.process_document_from_text stem ix text path).1.stats.stop_words_matched =
      ix.stats.stop_words_matched + (splitchars text).countP (fun t =>
        !(normalize_token t).isEmpty && is_stop_word (normalize_token t)) ∧
     (Indexer.process_document_from_text stem ix text path).1.stats.short_words_ignored =
      ix.stats.short_words_ignored + (splitchars text).countP (fun t =>
        !(normalize_token t).isEmpty && !is_stop_word (normalize_token t) &&
        !starts_with_punctuation (normalize_token t) && is_short (normalize_token t))) ∧
    ((Indexer.process_document_from_text stem ix "a".toList path).1.stats.stop_words_matched =
      ix.stats.stop_words_matched + 1 ∧
     (Indexer.process_document_from_text stem ix "a".toList path).1.stats.short_words_ignored =
      ix.stats.short_words_ignored) := by
  have h := processToken_fold_counts stem (splitchars text) (ix.stats, [])
  have hs := process_document_from_text_stats stem ix text path
  have ha := processToken_fold_counts stem (splitchars "a".toList) (ix.stats, [])
  have hsa := process_document_from_text_stats stem ix "a".toList path
  refine ⟨⟨?_, ?_⟩, ?_, ?_⟩
  · rw [hs]; exact h.1
  · rw [hs]; exact h.2.1
  · rw [hsa, ha.1]
    simp only [Prod.fst]
    norm_num
    decide
  · rw [hsa, ha.2.1]
    simp only [Prod.fst]
    norm_num
    decide

/-- C10: every `splitchars` token is a non-empty run of ASCII alphanumeric
characters, so normalization never empties it and its first character is
never punctuation; consequently `process_document_from_text` never takes
the empty-token skip or the punctuation branch, and the punctuation
rejection counter never changes, whatever the text. -/
theorem punctuation_rejection_unreachable (stem : List Char → List Char) (ix : Indexer)
    (text path : List Char) :
    (Indexer.process_document_from_text stem ix text path).1.stats.punctuation_words_ignored =
      ix.stats.punctuation_words_ignored ∧
    ∀ t ∈ splitchars text, t ≠ [] ∧ (∀ c ∈ t, isAlnumChar c = true) ∧
      normalize_token t ≠ [] ∧ starts_with_punctuation (normalize_token t) = false := by
  constructor
  · rw [process_document_from_text_stats stem ix text path,
      (processToken_fold_counts stem (splitchars text) (ix.stats, [])).2.2]
    have hz : (splitchars text).countP (fun t =>
        !(normalize_token t).isEmpty && !is_stop_word (normalize_token t) &&
        starts_with_punctuation (normalize_token t)) = 0 := by
      rw [List.countP_eq_zero]
      intro t ht
      obtain ⟨hne, hal⟩ := splitchars_tokens text t ht
      obtain ⟨_, _, hpunct⟩ := normalize_token_of_alnum t hne hal
      simp [hpunct]
    simp [hz]
  · intro t ht
    obtain ⟨hne, hal⟩ := splitchars_tokens text t ht
    obtain ⟨_, hne2, hpunct⟩ := normalize_token_of_alnum t hne hal
    exact ⟨hne, hal, hne2, hpunct⟩

/-! ### Crawl-loop lemmas -/

theorem pushLinks_inv (canon : List Char → List Char) (depth : Nat) :
    ∀ (links : List (List Char)) (wc : WebCrawler) (um : URLManager),
      (pushLinks canon depth wc um links).1.stats.urls_crawled = wc.stats.urls_crawled ∧
      (pushLinks canon depth wc um links).1.stats.documents_processed =
        wc.stats.documents_processed ∧
      (pushLinks canon depth wc um links).1.max_urls = wc.max_urls := by
  intro links
  induction links with
  | nil => intro wc um; exact ⟨rfl, rfl, rfl⟩
  | cons l rest ih =>
    intro wc um
    unfold pushLinks
    by_cases h : wc.stats.urls_in_frontier < wc.max_urls
    · simpa [h] using ih _ _
    · simpa [h] using ih wc um

theorem crawlLoop_bound (o : CrawlOracle) :
    ∀ (fuel : Nat) (um : URLManager) (wc : WebCrawler),
      wc.stats.urls_crawled < wc.max_urls →
      wc.stats.documents_processed = wc.stats.urls_crawled →
      (crawlLoop o fuel um wc).1.stats.urls_crawled ≤ wc.max_urls ∧
      (crawlLoop o fuel um wc).1.stats.documents_processed ≤ wc.max_urls := by
  intro fuel
  induction fuel with
  | zero =>
    intro um wc h hdp
    exact ⟨le_of_lt h, hdp ▸ le_of_lt h⟩
  | succ fuel ih =>
    intro um wc h hdp
    unfold crawlLoop
    by_cases hemp : um.is_empty
    · simpa [hemp] using ⟨le_of_lt h, hdp ▸ le_of_lt h⟩
    · simp only [hemp, Bool.false_eq_true, if_false]
      cases hnext : um.get_next_url with
      | none => simpa using ⟨le_of_lt h, hdp ▸ le_of_lt h⟩
      | some pr =>
        obtain ⟨⟨url, depth⟩, um1⟩ := pr
        simp only
        by_cases hd : wc.max_depth < depth
        · simpa [hd] using ih um1 wc h hdp
        · simp only [hd, if_false]
          cases hf : o.fetch url with
          | none => simpa using ih um1 wc h hdp
          | some html =>
            simp only
            have hproc := process_document_effects o.stem wc url (o.extractText html)
            set wcp := wc.process_document o.stem url (o.extractText html) with hwcp
            have hpl := pushLinks_inv o.canon depth (o.extractLinks html url) wcp um1
            set p := if wcp.stats.urls_crawled < wcp.max_urls then
                pushLinks o.canon depth wcp um1 (o.extractLinks html url)
              else (wcp, um1) with hp
            have hp1 : p.1.stats.urls_crawled = wc.stats.urls_crawled ∧
                p.1.stats.documents_processed = wc.stats.documents_processed + 1 ∧
                p.1.max_urls = wc.max_urls := by
              rw [hp]
              by_cases hc : wcp.stats.urls_crawled < wcp.max_urls
              · simp only [hc, if_pos]
                exact ⟨hpl.1.trans hproc.2.2.2.2.2.1, hpl.2.1.trans hproc.2.2.2.2.1,
                  hpl.2.2.trans hproc.2.2.2.2.2.2.2.1⟩
              · simp only [hc, if_neg, Bool.false_eq_true]
                exact ⟨hproc.2.2.2.2.2.1, hproc.2.2.2.2.1, hproc.2.2.2.2.2.2.2.1⟩
            have hmax : p.1.max_urls = wc.max_urls := hp1.2.2
            by_cases hfin : p.1.max_urls ≤ p.1.stats.urls_crawled + 1
            · simp only [hfin, if_pos]
              constructor
              · show p.1.stats.urls_crawled + 1 ≤ wc.max_urls
                rw [hp1.1]
                omega
              · show p.1.stats.documents_processed ≤ wc.max_urls
                rw [hp1.2.1, hdp]
                omega
            · simp only [hfin, if_neg, Bool.false_eq_true]
              have hrec := ih p.2 {p.1 with stats := {p.1.stats with
                  urls_crawled := p.1.stats.urls_crawled + 1}}
                (by simpa using lt_of_not_le hfin)
                (by simp [hp1.2.1, hp1.1, hdp])
              simpa [hmax] using hrec

theorem crawlLoop_of_empty (o : CrawlOracle) (fuel : Nat) (um : URLManager) (wc : WebCrawler)
    (h : um.stack = []) : crawlLoop o fuel um wc = (wc, um) := by
  cases fuel with
  | zero => rfl
  | succ n =>
    unfold crawlLoop
    simp [URLManager.is_empty, h]

/-- C9 (with the spec-modelled URL frontier): throughout every fuel-bounded
execution of the crawl loop started from a fresh crawler, the number of
crawled URLs and of processed (fetched-and-indexed) documents never exceeds
`max_urls`, whatever the fetch/extract/link oracles do — so the loop stops
consuming the frontier once the budget is reached even if entries remain. -/
theorem crawl_url_budget (o : CrawlOracle) (max_urls max_depth fuel : Nat)
    (start : List Char) :
    ((WebCrawler.init max_urls max_depth).crawl o start fuel).1.stats.urls_crawled ≤ max_urls ∧
    ((WebCrawler.init max_urls max_depth).crawl o start fuel).1.stats.documents_processed ≤
      max_urls := by
  unfold WebCrawler.crawl
  by_cases h0 : max_urls = 0
  · subst h0
    have hseed : ((URLManager.init (WebCrawler.init 0 max_depth).max_urls).add_url
        o.canon start 0).stack = [] := by
      unfold URLManager.add_url URLManager.init
      simp [WebCrawler.init]
    rw [crawlLoop_of_empty o fuel _ _ hseed]
    exact ⟨Nat.le.refl, Nat.le.refl⟩
  · exact crawlLoop_bound o fuel _ _ (Nat.pos_of_ne_zero h0) rfl

/-! ### Load lemmas -/

theorem foldl_max_le_init (l : List Nat) : ∀ a : Nat, a ≤ l.foldl max a := by
  induction l with
  | nil => intro a; exact Nat.le.refl
  | cons b t ih => intro a; exact le_trans (Nat.le_max_left a b) (ih (max a b))

theorem mem_le_foldl_max (l : List Nat) : ∀ (a x : Nat), x ∈ l → x ≤ l.foldl max a := by
  induction l with
  | nil => intro a x hx; cases hx
  | cons b t ih =>
    intro a x hx
    rcases List.mem_cons.mp hx with rfl | hx'
    · exact le_trans (Nat.le_max_right a x) (foldl_max_le_init t (max a x))
    · exact ih (max a b) x hx'

theorem le_pyMaxSnd {α : Type} (l : List (α × Nat)) : ∀ e ∈ l, e.2 ≤ pyMaxSnd l := by
  intro e he
  exact mem_le_foldl_max (l.map Prod.snd) 0 e.2 (List.mem_map_of_mem Prod.snd he)

/-- C3 counterexample: loading a missing index directory into an index that
already holds a document fails (`False` is reported) but the `documents`
and `documents_inv` tables have already been cleared — the state is *not*
left as it was before the call. -/
theorem load_failure_partial_cex :
    (Indexer.load_index {emptyIndexer with documents := [("x".toList, 1)], documents_inv := [(1, "x".toList)]} ⟨none, none, none, none⟩).2 = false ∧
    (Indexer.load_index {emptyIndexer with documents := [("x".toList, 1)], documents_inv := [(1, "x".toList)]} ⟨none, none, none, none⟩).1 ≠
      {emptyIndexer with documents := [("x".toList, 1)], documents_inv := [(1, "x".toList)]} := by
  decide

/-- C3 amended: a failed load is reported (`False` returned), and the id
counters, totals and statistics retain their pre-call values (they are
updated only after all four files parse); but the tables processed up to
the failure point are overwritten rather than restored — the pre-call state
is not fully preserved (see the counterexample). -/
theorem load_failure_counters (ix : Indexer) (fs : LoadFiles)
    (h : (ix.load_index fs).2 = false) :
    (ix.load_index fs).1.next_doc_id = ix.next_doc_id ∧
    (ix.load_index fs).1.next_term_id = ix.next_term_id ∧
    (ix.load_index fs).1.total_docs = ix.total_docs ∧
    (ix.load_index fs).1.total_terms = ix.total_terms ∧
    (ix.load_index fs).1.stats = ix.stats := by
  unfold Indexer.load_index at h ⊢
  cases hd : fs.documents with
  | none => simp
  | some ls =>
    simp only [hd] at h ⊢
    cases h1 : (parseLines parseNameIdLine ls).2 with
    | false => simp [h1]
    | true =>
      simp only [h1, Bool.not_true, Bool.false_eq_true, if_false] at h ⊢
      cases ht : fs.terms with
      | none => simp
      | some ls2 =>
        simp only [ht] at h ⊢
        cases h2 : (parseLines parseNameIdLine ls2).2 with
        | false => simp [h2]
        | true =>
          simp only [h2, Bool.not_true, Bool.false_eq_true, if_false] at h ⊢
          cases hp : fs.postings with
          | none => simp
          | some ls3 =>
            simp only [hp] at h ⊢
            cases h3 : (parseLines parsePostingLine ls3).2 with
            | false => simp [h3]
            | true =>
              simp only [h3, Bool.not_true, Bool.false_eq_true, if_false] at h ⊢
              cases hl : fs.doc_lengths with
              | none => simp
              | some ls4 =>
                simp only [hl] at h ⊢
                cases h4 : (parseLines parseLenLine ls4).2 with
                | false => simp [h4]
                | true => simp [h4] at h

/-- C3 amended witness: a concrete failed load (missing directory) reports
`False` and keeps the counters. -/
theorem load_failure_counters_witness :
    ((Indexer.load_index {emptyIndexer with documents := [("x".toList, 1)], documents_inv := [(1, "x".toList)], next_doc_id := 2, total_docs := 1} ⟨none, none, none, none⟩).2 = false) ∧
    (Indexer.load_index {emptyIndexer with documents := [("x".toList, 1)], documents_inv := [(1, "x".toList)], next_doc_id := 2, total_docs := 1} ⟨none, none, none, none⟩).1.next_doc_id = 2 := by
  refine ⟨by decide, ?_⟩
  exact (load_failure_counters {emptyIndexer with documents := [("x".toList, 1)], documents_inv := [(1, "x".toList)], next_doc_id := 2, total_docs := 1} ⟨none, none, none, none⟩ (by decide)).1

/-- C8: after a successful load, `next_doc_id` is `max(loaded doc ids) + 1`
(`1` when the documents table is empty) and `next_term_id` likewise, so
every loaded id is strictly below the corresponding counter and ids
assigned afterwards cannot collide with loaded ones. -/
theorem load_success_counters (ix : Indexer) (fs : LoadFiles)
    (h : (ix.load_index fs).2 = true) :
    (ix.load_index fs).1.next_doc_id =
      (if (ix.load_index fs).1.documents.isEmpty then 1
       else pyMaxSnd (ix.load_index fs).1.documents + 1) ∧
    (ix.load_index fs).1.next_term_id =
      (if (ix.load_index fs).1.terms.isEmpty then 1
       else pyMaxSnd (ix.load_index fs).1.terms + 1) ∧
    (∀ e ∈ (ix.load_index fs).1.documents, e.2 < (ix.load_index fs).1.next_doc_id) ∧
    (∀ e ∈ (ix.load_index fs).1.terms, e.2 < (ix.load_index fs).1.next_term_id) := by
  unfold Indexer.load_index at h ⊢
  cases hd : fs.documents with
  | none => simp [hd] at h
  | some ls =>
    simp only [hd] at h ⊢
    cases h1 : (parseLines parseNameIdLine ls).2 with
    | false => simp [h1] at h
    | true =>
      simp only [h1, Bool.not_true, Bool.false_eq_true, if_false] at h ⊢
      cases ht : fs.terms with
      | none => simp [ht] at h
      | some ls2 =>
        simp only [ht] at h ⊢
        cases h2 : (parseLines parseNameIdLine ls2).2 with
        | false => simp [h2] at h
        | true =>
          simp only [h2, Bool.not_true, Bool.false_eq_true, if_false] at h ⊢
          cases hp : fs.postings with
          | none => simp [hp] at h
          | some ls3 =>
            simp only [hp] at h ⊢
            cases h3 : (parseLines parsePostingLine ls3).2 with
            | false => simp [h3] at h
            | true =>
              simp only [h3, Bool.not_true, Bool.false_eq_true, if_false] at h ⊢
              cases hl : fs.doc_lengths with
              | none => simp [hl] at h
              | some ls4 =>
                simp only [hl] at h ⊢
                cases h4 : (parseLines parseLenLine ls4).2 with
                | false => simp [h4] at h
                | true =>
                  simp only [h4, Bool.not_true, Bool.false_eq_true, if_false]
                  refine ⟨trivial, trivial, ?_, ?_⟩
                  · intro e he
                    have hne : (buildDict (parseLines parseNameIdLine ls).1).isEmpty = false := by
                      cases hb : buildDict (parseLines parseNameIdLine ls).1 with
                      | nil => rw [hb] at he; cases he
                      | cons x t => rfl
                    rw [if_neg (by simp [hne])]
                    exact Nat.lt_succ_of_le (le_pyMaxSnd _ e he)
                  · intro e he
                    have hne : (buildDict (parseLines parseNameIdLine ls2).1).isEmpty = false := by
                      cases hb : buildDict (parseLines parseNameIdLine ls2).1 with
                      | nil => rw [hb] at he; cases he
                      | cons x t => rfl
                    rw [if_neg (by simp [hne])]
                    exact Nat.lt_succ_of_le (le_pyMaxSnd _ e he)

/-- C8 witness: loading a directory with one document row `x,3` and one
term row `t,5` sets the counters to `4` and `6`. -/
theorem load_success_counters_witness :
    ((Indexer.load_index emptyIndexer ⟨some ["x,3".toList], some ["t,5".toList], some [], some []⟩).2 = true) ∧
    (Indexer.load_index emptyIndexer ⟨some ["x,3".toList], some ["t,5".toList], some [], some []⟩).1.next_doc_id =
      (if (Indexer.load_index emptyIndexer ⟨some ["x,3".toList], some ["t,5".toList], some [], some []⟩).1.documents.isEmpty then 1
       else pyMaxSnd (Indexer.load_index emptyIndexer ⟨some ["x,3".toList], some ["t,5".toList], some [], some []⟩).1.documents + 1) ∧
    (Indexer.load_index emptyIndexer ⟨some ["x,3".toList], some ["t,5".toList], some [], some []⟩).1.next_doc_id = 4 ∧
    (Indexer.load_index emptyIndexer ⟨some ["x,3".toList], some ["t,5".toList], some [], some []⟩).1.next_term_id = 6 := by
  refine ⟨by decide, ?_, by decide, by decide⟩
  exact (load_success_counters emptyIndexer
    ⟨some ["x,3".toList], some ["t,5".toList], some [], some []⟩ (by decide)).1

/-! ### Decimal serialization lemmas -/

theorem digitToChar_spec (d : Nat) (h : d < 10) :
    isDigitChar (digitToChar d) = true ∧ (digitToChar d).toNat - 48 = d := by
  interval_cases d <;> exact ⟨rfl, rfl⟩

theorem natToCharsAux_zero (fuel : Nat) : natToCharsAux fuel 0 = [] := by
  cases fuel <;> rfl

theorem digitsVal_append_singleton (l : List Char) (c : Char) :
    digitsVal (l ++ [c]) = 10 * digitsVal l + (c.toNat - 48) := by
  simp [digitsVal, List.foldl_append]

theorem natToCharsAux_spec : ∀ fuel n : Nat, n ≤ fuel → 0 < n →
    natToCharsAux fuel n ≠ [] ∧ (∀ c ∈ natToCharsAux fuel n, isDigitChar c = true) ∧
      digitsVal (natToCharsAux fuel n) = n := by
  intro fuel
  induction fuel with
  | zero => intro n h h0; omega
  | succ fuel ih =>
    intro n hle h0
    obtain ⟨m, rfl⟩ : ∃ m, n = m + 1 := ⟨n - 1, by omega⟩
    have hunf : natToCharsAux (fuel + 1) (m + 1) =
        natToCharsAux fuel ((m + 1) / 10) ++ [digitToChar ((m + 1) % 10)] := rfl
    have hd := digitToChar_spec ((m + 1) % 10) (Nat.mod_lt _ (by omega))
    by_cases hq : (m + 1) / 10 = 0
    · have hlt10 : m + 1 < 10 := by omega
      rw [hunf, hq, natToCharsAux_zero]
      refine ⟨by simp, ?_, ?_⟩
      · intro c hc
        simp only [List.nil_append, List.mem_singleton] at hc
        subst hc
        exact hd.1
      · simp only [List.nil_append]
        have : digitsVal [digitToChar ((m + 1) % 10)] =
            10 * digitsVal [] + ((digitToChar ((m + 1) % 10)).toNat - 48) := by
          simpa using digitsVal_append_singleton [] (digitToChar ((m + 1) % 10))
        rw [this, hd.2]
        simp [digitsVal, Nat.mod_eq_of_lt hlt10]
    · have hlt : (m + 1) / 10 < m + 1 := Nat.div_lt_self (by omega) (by omega)
      have hle2 : (m + 1) / 10 ≤ fuel := by omega
      obtain ⟨hne, hdig, hval⟩ := ih ((m + 1) / 10) hle2 (Nat.pos_of_ne_zero hq)
      rw [hunf]
      refine ⟨by simp, ?_, ?_⟩
      · intro c hc
        rcases List.mem_append.mp hc with hc1 | hc2
        · exact hdig c hc1
        · simp only [List.mem_singleton] at hc2
          subst hc2
          exact hd.1
      · rw [digitsVal_append_singleton, hval, hd.2]
        exact Nat.div_add_mod (m + 1) 10

theorem natToChars_spec (n : Nat) :
    natToChars n ≠ [] ∧ (∀ c ∈ natToChars n, isDigitChar c = true) ∧
      charsToNat? (natToChars n) = some n := by
  by_cases h : n = 0
  · subst h
    exact ⟨by simp [natToChars], by intro c hc; simp [natToChars] at hc; subst hc; rfl,
      by simp [natToChars, charsToNat?, isDigits, digitsVal]; rfl⟩
  · obtain ⟨hne, hdig, hval⟩ := natToCharsAux_spec n n le_rfl (Nat.pos_of_ne_zero h)
    have hform : natToChars n = natToCharsAux n n := by simp [natToChars, h]
    rw [hform]
    refine ⟨hne, hdig, ?_⟩
    have hd : isDigits (natToCharsAux n n) = true := by
      simp only [isDigits, Bool.and_eq_true, Bool.not_eq_true']
      exact ⟨by simpa [List.isEmpty_iff] using hne, by simpa [List.all_eq_true] using hdig⟩
    simp [charsToNat?, hd, hval]

theorem natToCharsAux_length : ∀ fuel n k : Nat, n ≤ fuel → n < 10 ^ k →
    (natToCharsAux fuel n).length ≤ k := by
  intro fuel
  induction fuel with
  | zero =>
    intro n k h _
    cases n with
    | zero => simp [natToCharsAux_zero]
    | succ m => omega
  | succ fuel ih =>
    intro n k hle hk
    cases n with
    | zero => simp [natToCharsAux_zero]
    | succ m =>
      have hunf : natToCharsAux (fuel + 1) (m + 1) =
          natToCharsAux fuel ((m + 1) / 10) ++ [digitToChar ((m + 1) % 10)] := rfl
      cases k with
      | zero => simp at hk
      | succ j =>
        have h1 : (m + 1) / 10 < 10 ^ j := by
          rw [Nat.div_lt_iff_lt_mul (by omega : 0 < 10)]
          calc m + 1 < 10 ^ (j + 1) := hk
          _ = 10 ^ j * 10 := by ring
        have h2 : (m + 1) / 10 ≤ fuel := by
          have := Nat.div_lt_self (Nat.succ_pos m) (by omega : 1 < 10)
          omega
        rw [hunf]
        simp only [List.length_append, List.length_singleton]
        have := ih ((m + 1) / 10) j h2 h1
        omega

theorem natToChars_length_le (n k : Nat) (h : n < 10 ^ k) (hk : 0 < k) :
    (natToChars n).length ≤ k := by
  by_cases h0 : n = 0
  · subst h0; simpa [natToChars] using hk
  · rw [natToChars, if_neg h0]
    exact natToCharsAux_length n n k le_rfl h

theorem digitsVal_replicate_zero_append (j : Nat) (l : List Char) :
    digitsVal (List.replicate j '0' ++ l) = digitsVal l := by
  induction j with
  | zero => simp
  | succ i ih =>
    have : List.replicate (i + 1) '0' ++ l = '0' :: (List.replicate i '0' ++ l) := by
      simp [List.replicate_succ]
    rw [this]
    have hstep : digitsVal ('0' :: (List.replicate i '0' ++ l)) =
        digitsVal (List.replicate i '0' ++ l) := by
      simp [digitsVal]
    rw [hstep, ih]

theorem padSixDigits_spec (k : Nat) (h : k < 10 ^ 6) :
    (padSixDigits k).length = 6 ∧ (∀ c ∈ padSixDigits k, isDigitChar c = true) ∧
      charsToNat? (padSixDigits k) = some k := by
  obtain ⟨hne, hdig, hval⟩ := natToChars_spec k
  have hlen : (natToChars k).length ≤ 6 := natToChars_length_le k 6 h (by omega)
  refine ⟨?_, ?_, ?_⟩
  · simp only [padSixDigits, List.length_append, List.length_replicate]
    omega
  · intro c hc
    rcases List.mem_append.mp hc with hc1 | hc2
    · rw [List.eq_of_mem_replicate hc1]; rfl
    · exact hdig c hc2
  · have hd : isDigits (padSixDigits k) = true := by
      simp only [isDigits, Bool.and_eq_true, Bool.not_eq_true']
      constructor
      · cases hp : padSixDigits k with
        | nil =>
          have hnil : natToChars k = [] := by
            have := hp
            simp only [padSixDigits, List.append_eq_nil] at this
            exact this.2
          exact absurd hnil hne
        | cons a t => rfl
      · rw [List.all_eq_true]
        intro c hc
        rcases List.mem_append.mp hc with hc1 | hc2
        · rw [List.eq_of_mem_replicate hc1]; rfl
        · exact hdig c hc2
    have hv : digitsVal (padSixDigits k) = k := by
      rw [padSixDigits, digitsVal_replicate_zero_append]
      have := natToChars_spec k
      simp only [charsToNat?] at hval
      by_cases hid : isDigits (natToChars k) = true
      · rw [if_pos hid] at hval
        exact Option.some.inj hval
      · rw [if_neg hid] at hval; cases hval
    simp [charsToNat?, hd, hv]

theorem splitOnChar_ne_nil (sep : Char) (s : List Char) : splitOnChar sep s ≠ [] := by
  induction s with
  | nil => simp [splitOnChar]
  | cons c t ih =>
    by_cases h : c = sep
    · simp [splitOnChar, h]
    · simp only [splitOnChar, h, Bool.false_eq_true, if_false]
      cases hs : splitOnChar sep t with
      | nil => simp
      | cons f fs => simp

theorem splitOnChar_no_sep (sep : Char) (s : List Char) (h : sep ∉ s) :
    splitOnChar sep s = [s] := by
  induction s with
  | nil => rfl
  | cons c t ih =>
    have hc : ¬ c = sep := fun hh => h (hh ▸ List.mem_cons_self c t)
    have ht : sep ∉ t := fun hh => h (List.mem_cons_of_mem c hh)
    simp only [splitOnChar, hc, Bool.false_eq_true, if_false, ih ht]

theorem splitOnChar_append_cons (sep : Char) (a b : List Char) (ha : sep ∉ a) :
    splitOnChar sep (a ++ sep :: b) = a :: splitOnChar sep b := by
  induction a with
  | nil => simp [splitOnChar]
  | cons c t ih =>
    have hc : ¬ c = sep := fun hh => ha (hh ▸ List.mem_cons_self c t)
    have ht : sep ∉ t := fun hh => ha (List.mem_cons_of_mem c hh)
    have ihh : splitOnChar sep (t.append (sep :: b)) = t :: splitOnChar sep b := ih ht
    simp only [List.cons_append, splitOnChar, hc, Bool.false_eq_true, if_false, ihh]

theorem pyStrip_eq_self (l : List Char)
    (h1 : ∀ c ∈ l.head?, isPySpace c = false)
    (h2 : ∀ c ∈ l.getLast?, isPySpace c = false) : pyStrip l = l := by
  have ha : l.dropWhile isPySpace = l := by
    cases l with
    | nil => rfl
    | cons c t => simp [List.dropWhile_cons, h1 c (by simp)]
  have hb : l.reverse.dropWhile isPySpace = l.reverse := by
    cases hr : l.reverse with
    | nil => rfl
    | cons c t =>
      have hc : l.getLast? = some c := by
        rw [← List.head?_reverse, hr]
        rfl
      simp [List.dropWhile_cons, h2 c (by rw [hc]; rfl)]
  unfold pyStrip
  rw [ha, hb, List.reverse_reverse]

theorem dictGet?_not_mem {α β : Type} [DecidableEq α] (d : List (α × β)) (k : α)
    (h : k ∉ d.map Prod.fst) : dictGet? d k = none := by
  induction d with
  | nil => rfl
  | cons e t ih =>
    simp only [List.map_cons, List.mem_cons] at h
    push_neg at h
    obtain ⟨ek, ev⟩ := e
    rw [dictGet?_cons, if_neg (fun hh => h.1 hh.symm), ih h.2]

theorem dictSet_dictSet_same {α β : Type} [DecidableEq α] (d : List (α × β)) (k : α) (v w : β) :
    dictSet (dictSet d k v) k w = dictSet d k w := by
  induction d with
  | nil => simp [dictSet]
  | cons e t ih =>
    obtain ⟨ek, ev⟩ := e
    by_cases h : ek = k
    · simp [dictSet, h]
    · simp [dictSet, h, ih]

theorem foldl_dictSet_append {α β : Type} [DecidableEq α] (l : List (α × β)) :
    ∀ acc : List (α × β), (l.map Prod.fst).Nodup →
      (∀ k ∈ l.map Prod.fst, k ∉ acc.map Prod.fst) →
      l.foldl (fun d e => dictSet d e.1 e.2) acc = acc ++ l := by
  induction l with
  | nil => intro acc _ _; simp
  | cons e t ih =>
    intro acc hnd hdisj
    simp only [List.foldl_cons]
    have hfresh : e.1 ∉ acc.map Prod.fst := hdisj e.1 (by simp)
    rw [dictSet_fresh acc e.1 e.2 hfresh]
    simp only [List.map_cons, List.nodup_cons] at hnd
    have := ih (acc ++ [(e.1, e.2)]) hnd.2 (by
      intro k hk
      simp only [List.map_append, List.mem_append, List.map_cons, List.map_nil,
        List.mem_singleton, not_or]
      exact ⟨fun hh => hdisj k (by simp [hk]) hh, fun hh => hnd.1 (hh ▸ hk)⟩)
    rw [this]
    simp

theorem buildDict_eq_self {α β : Type} [DecidableEq α] (l : List (α × β))
    (h : (l.map Prod.fst).Nodup) : buildDict l = l := by
  have := foldl_dictSet_append l [] h (by simp)
  simpa [buildDict] using this

theorem digit_not_space (c : Char) (h : isDigitChar c = true) : isPySpace c = false := by
  have hall : ∀ x ∈ pySpaceChars, isDigitChar x = false := by decide
  cases hmem : isPySpace c with
  | false => rfl
  | true =>
    have : c ∈ pySpaceChars := by simpa [isPySpace] using hmem
    rw [hall c this] at h
    cases h

theorem digit_ne_comma (c : Char) (h : isDigitChar c = true) : c ≠ ',' := by
  intro hh
  rw [hh] at h
  cases h

theorem digit_ne_dot (c : Char) (h : isDigitChar c = true) : c ≠ '.' := by
  intro hh
  rw [hh] at h
  cases h

theorem format6_eq (q : ℚ) : format6 q =
    (if divRoundHalfEven (q.num * 1000000) (q.den : ℤ) < 0 then ['-'] else []) ++
      natToChars ((divRoundHalfEven (q.num * 1000000) (q.den : ℤ)).natAbs / 1000000) ++
      '.' :: padSixDigits ((divRoundHalfEven (q.num * 1000000) (q.den : ℤ)).natAbs % 1000000) := rfl

theorem format6_facts (q : ℚ) :
    format6 q ≠ [] ∧
    (∀ c ∈ format6 q, isDigitChar c = true ∨ c = '-' ∨ c = '.') ∧
    (∀ c ∈ (format6 q).getLast?, isPySpace c = false) := by
  have hmod : (divRoundHalfEven (q.num * 1000000) (q.den : ℤ)).natAbs % 1000000 < 10 ^ 6 :=
    Nat.mod_lt _ (by norm_num)
  obtain ⟨hpadlen, hpaddig, hpadval⟩ := padSixDigits_spec _ hmod
  obtain ⟨hne1, hdig1, hval1⟩ := natToChars_spec
    ((divRoundHalfEven (q.num * 1000000) (q.den : ℤ)).natAbs / 1000000)
  have hpadne : padSixDigits ((divRoundHalfEven (q.num * 1000000) (q.den : ℤ)).natAbs % 1000000) ≠ [] := by
    intro hh
    rw [hh] at hpadlen
    cases hpadlen
  refine ⟨?_, ?_, ?_⟩
  · rw [format6_eq]
    simp
  · intro c hc
    rw [format6_eq] at hc
    rcases List.mem_append.mp hc with hc1 | hc2
    · rcases List.mem_append.mp hc1 with hc3 | hc4
      · by_cases hs : divRoundHalfEven (q.num * 1000000) (q.den : ℤ) < 0
        · rw [if_pos hs] at hc3
          simp only [List.mem_singleton] at hc3
          exact Or.inr (Or.inl hc3)
        · rw [if_neg hs] at hc3
          cases hc3
      · exact Or.inl (hdig1 c hc4)
    · rcases List.mem_cons.mp hc2 with rfl | hc5
      · exact Or.inr (Or.inr rfl)
      · exact Or.inl (hpaddig c hc5)
  · intro c hc
    rw [format6_eq, List.getLast?_append_of_ne_nil _ (by simp)] at hc
    have hstep : (('.' : Char) :: padSixDigits ((divRoundHalfEven (q.num * 1000000) (q.den : ℤ)).natAbs % 1000000)).getLast? =
        (padSixDigits ((divRoundHalfEven (q.num * 1000000) (q.den : ℤ)).natAbs % 1000000)).getLast? := by
      have := List.getLast?_append_of_ne_nil ['.'] hpadne
      simpa using this
    rw [hstep] at hc
    exact digit_not_space c (hpaddig c (List.mem_of_mem_getLast? hc))

theorem parseFloat?_format6 (q : ℚ) :
    parseFloat? (format6 q) =
      some (((divRoundHalfEven (q.num * 1000000) (q.den : ℤ)) : ℚ) / 1000000) := by
  have hmod : (divRoundHalfEven (q.num * 1000000) (q.den : ℤ)).natAbs % 1000000 < 10 ^ 6 :=
    Nat.mod_lt _ (by norm_num)
  obtain ⟨hpadlen, hpaddig, hpadval⟩ := padSixDigits_spec _ hmod
  obtain ⟨hne1, hdig1, hval1⟩ := natToChars_spec
    ((divRoundHalfEven (q.num * 1000000) (q.den : ℤ)).natAbs / 1000000)
  have hdot1 : ('.' : Char) ∉ natToChars
      ((divRoundHalfEven (q.num * 1000000) (q.den : ℤ)).natAbs / 1000000) :=
    fun hh => digit_ne_dot '.' (hdig1 '.' hh) rfl
  have hdot2 : ('.' : Char) ∉ padSixDigits
      ((divRoundHalfEven (q.num * 1000000) (q.den : ℤ)).natAbs % 1000000) :=
    fun hh => digit_ne_dot '.' (hpaddig '.' hh) rfl
  have harith : (((divRoundHalfEven (q.num * 1000000) (q.den : ℤ)).natAbs / 1000000 : ℕ) : ℚ) +
      (((divRoundHalfEven (q.num * 1000000) (q.den : ℤ)).natAbs % 1000000 : ℕ) : ℚ) / (10 : ℚ) ^ 6 =
      ((divRoundHalfEven (q.num * 1000000) (q.den : ℤ)).natAbs : ℚ) / 1000000 := by
    have hdm := Nat.div_add_mod (divRoundHalfEven (q.num * 1000000) (q.den : ℤ)).natAbs 1000000
    have hcast : (1000000 : ℚ) * (((divRoundHalfEven (q.num * 1000000) (q.den : ℤ)).natAbs / 1000000 : ℕ) : ℚ) +
        (((divRoundHalfEven (q.num * 1000000) (q.den : ℤ)).natAbs % 1000000 : ℕ) : ℚ) =
        ((divRoundHalfEven (q.num * 1000000) (q.den : ℤ)).natAbs : ℚ) := by
      exact_mod_cast congrArg (fun x : ℕ => (x : ℚ)) hdm
    rw [eq_div_iff (by norm_num : (1000000 : ℚ) ≠ 0)]
    rw [← hcast]
    ring
  have hcore : parseUFloat? (natToChars
        ((divRoundHalfEven (q.num * 1000000) (q.den : ℤ)).natAbs / 1000000) ++
      '.' :: padSixDigits ((divRoundHalfEven (q.num * 1000000) (q.den : ℤ)).natAbs % 1000000)) =
      some (((divRoundHalfEven (q.num * 1000000) (q.den : ℤ)).natAbs : ℚ) / 1000000) := by
    unfold parseUFloat?
    rw [splitOnChar_append_cons '.' _ _ hdot1, splitOnChar_no_sep '.' _ hdot2]
    simp only [hval1, hpadval, hpadlen, Option.bind_some, Option.some_bind, bind, Option.bind]
    rw [← harith]
    rfl
  by_cases hneg : divRoundHalfEven (q.num * 1000000) (q.den : ℤ) < 0
  · have hform : format6 q = '-' :: (natToChars
        ((divRoundHalfEven (q.num * 1000000) (q.den : ℤ)).natAbs / 1000000) ++
        '.' :: padSixDigits ((divRoundHalfEven (q.num * 1000000) (q.den : ℤ)).natAbs % 1000000)) := by
      rw [format6_eq, if_pos hneg]
      rfl
    rw [hform]
    unfold parseFloat?
    rw [if_pos (by rfl : (('-' :: _ : List Char)).head? = some '-')]
    simp only [List.tail_cons]
    rw [hcore]
    have habs : (((divRoundHalfEven (q.num * 1000000) (q.den : ℤ)).natAbs : ℕ) : ℚ) =
        -((divRoundHalfEven (q.num * 1000000) (q.den : ℤ) : ℤ) : ℚ) := by
      rw [Int.cast_natAbs]
      exact_mod_cast abs_of_nonpos (le_of_lt hneg)
    simp only [Option.map_some']
    congr 1
    rw [habs]
    ring
  · have hform : format6 q = natToChars
        ((divRoundHalfEven (q.num * 1000000) (q.den : ℤ)).natAbs / 1000000) ++
        '.' :: padSixDigits ((divRoundHalfEven (q.num * 1000000) (q.den : ℤ)).natAbs % 1000000) := by
      rw [format6_eq, if_neg hneg]
      rfl
    rw [hform]
    unfold parseFloat?
    have hhead : ¬ ((natToChars
        ((divRoundHalfEven (q.num * 1000000) (q.den : ℤ)).natAbs / 1000000) ++
        '.' :: padSixDigits ((divRoundHalfEven (q.num * 1000000) (q.den : ℤ)).natAbs % 1000000)).head? = some '-') := by
      cases hcl : natToChars ((divRoundHalfEven (q.num * 1000000) (q.den : ℤ)).natAbs / 1000000) with
      | nil => exact absurd hcl hne1
      | cons a t =>
        have ha : isDigitChar a = true := hdig1 a (by rw [hcl]; simp)
        simp only [List.cons_append, List.head?_cons, Option.some.injEq]
        intro hh
        rw [hh] at ha
        cases ha
    rw [if_neg hhead, hcore]
    have habs : (((divRoundHalfEven (q.num * 1000000) (q.den : ℤ)).natAbs : ℕ) : ℚ) =
        ((divRoundHalfEven (q.num * 1000000) (q.den : ℤ) : ℤ) : ℚ) := by
      rw [Int.cast_natAbs]
      exact_mod_cast abs_of_nonneg (not_lt.mp hneg)
    congr 1
    rw [habs]

theorem divRoundHalfEven_mul_cancel (m d : ℤ) (hd : 0 < d) :
    divRoundHalfEven (m * d) d = m := by
  unfold divRoundHalfEven
  have h1 : (m * d).fdiv d = m := Int.mul_fdiv_cancel m (ne_of_gt hd)
  simp only [h1]
  have h2 : 2 * (m * d - m * d) = 0 := by ring
  rw [h2, if_pos hd]

theorem format6_idempotent (q : ℚ) :
    format6 (((divRoundHalfEven (q.num * 1000000) (q.den : ℤ)) : ℚ) / 1000000) = format6 q := by
  have hdenq : ((((divRoundHalfEven (q.num * 1000000) (q.den : ℤ)) : ℚ) / 1000000 : ℚ).den : ℚ) ≠ 0 := by
    exact_mod_cast (((divRoundHalfEven (q.num * 1000000) (q.den : ℤ)) : ℚ) / 1000000 : ℚ).den_nz
  have hv := Rat.num_div_den (((divRoundHalfEven (q.num * 1000000) (q.den : ℤ)) : ℚ) / 1000000)
  have hcross : ((((divRoundHalfEven (q.num * 1000000) (q.den : ℤ)) : ℚ) / 1000000 : ℚ).num : ℚ) * 1000000 =
      ((divRoundHalfEven (q.num * 1000000) (q.den : ℤ)) : ℚ) *
        ((((divRoundHalfEven (q.num * 1000000) (q.den : ℤ)) : ℚ) / 1000000 : ℚ).den : ℚ) := by
    rw [div_eq_div_iff hdenq (by norm_num : (1000000 : ℚ) ≠ 0)] at hv
    linarith [hv]
  have hkey : (((divRoundHalfEven (q.num * 1000000) (q.den : ℤ)) : ℚ) / 1000000 : ℚ).num * 1000000 =
      divRoundHalfEven (q.num * 1000000) (q.den : ℤ) *
        ((((divRoundHalfEven (q.num * 1000000) (q.den : ℤ)) : ℚ) / 1000000 : ℚ).den : ℤ) := by
    exact_mod_cast hcross
  have hfix : divRoundHalfEven
      ((((divRoundHalfEven (q.num * 1000000) (q.den : ℤ)) : ℚ) / 1000000 : ℚ).num * 1000000)
      (((((divRoundHalfEven (q.num * 1000000) (q.den : ℤ)) : ℚ) / 1000000 : ℚ).den : ℕ) : ℤ) =
      divRoundHalfEven (q.num * 1000000) (q.den : ℤ) := by
    rw [hkey]
    exact divRoundHalfEven_mul_cancel _ _ (by
      exact_mod_cast Nat.pos_of_ne_zero
        (((divRoundHalfEven (q.num * 1000000) (q.den : ℤ)) : ℚ) / 1000000 : ℚ).den_nz)
  show format6 _ = format6 q
  rw [format6_eq, format6_eq, hfix]

theorem dictGetD_dictSet_same {α β : Type} [DecidableEq α] (d : List (α × β)) (k : α)
    (v v0 : β) : dictGetD (dictSet d k v) k v0 = v := by
  simp [dictGetD, dictGet?_dictSet]

theorem natToChars_no_comma (n : Nat) : ',' ∉ natToChars n := fun h =>
  digit_ne_comma ',' ((natToChars_spec n).2.1 ',' h) rfl

theorem format6_no_comma (q : ℚ) : ',' ∉ format6 q := by
  intro h
  rcases (format6_facts q).2.1 ',' h with hd | hm | hd2
  · exact digit_ne_comma ',' hd rfl
  · exact absurd hm (by decide)
  · exact absurd hd2 (by decide)

theorem getLast?_append_cons {α : Type} (a : List α) (c : α) (b : List α) (hb : b ≠ []) :
    (a ++ c :: b).getLast? = b.getLast? := by
  have h : a ++ c :: b = (a ++ [c]) ++ b := by simp
  rw [h, List.getLast?_append_of_ne_nil _ hb]

theorem parseFloat?_format6_round6 (q : ℚ) :
    parseFloat? (format6 q) = some (round6 q) := parseFloat?_format6 q

theorem parseNameIdLine_roundtrip (p : List Char) (n : Nat)
    (hc : ',' ∉ p) (hh : ∀ c ∈ p.head?, isPySpace c = false) :
    parseNameIdLine (p ++ ',' :: natToChars n) = some (p, n) := by
  obtain ⟨hne, hdig, hval⟩ := natToChars_spec n
  have hhead : ∀ c ∈ (p ++ ',' :: natToChars n).head?, isPySpace c = false := by
    cases p with
    | nil =>
      intro c hcm
      simp only [List.nil_append, List.head?_cons, Option.mem_def, Option.some.injEq] at hcm
      subst hcm
      rfl
    | cons x xs =>
      intro c hcm
      rw [List.head?_append_of_ne_nil (x :: xs) (by simp)] at hcm
      exact hh c hcm
  have hlast : ∀ c ∈ (p ++ ',' :: natToChars n).getLast?, isPySpace c = false := by
    intro c hcm
    rw [getLast?_append_cons p ',' _ hne] at hcm
    exact digit_not_space c (hdig c (List.mem_of_mem_getLast? hcm))
  have hstrip := pyStrip_eq_self _ hhead hlast
  rw [parseNameIdLine, hstrip, splitOnChar_append_cons ',' p _ hc,
    splitOnChar_no_sep ',' _ (natToChars_no_comma n)]
  simp [hval]

theorem parseLenLine_roundtrip (d : Nat) (q : ℚ) :
    parseLenLine (natToChars d ++ ',' :: format6 q) = some (d, round6 q) := by
  obtain ⟨hne, hdig, hval⟩ := natToChars_spec d
  obtain ⟨hfne, hfall, hflast⟩ := format6_facts q
  have hhead : ∀ c ∈ (natToChars d ++ ',' :: format6 q).head?, isPySpace c = false := by
    intro c hcm
    rw [List.head?_append_of_ne_nil _ hne] at hcm
    exact digit_not_space c (hdig c (List.mem_of_mem_head? hcm))
  have hlast : ∀ c ∈ (natToChars d ++ ',' :: format6 q).getLast?, isPySpace c = false := by
    intro c hcm
    rw [getLast?_append_cons _ ',' _ hfne] at hcm
    exact hflast c hcm
  have hstrip := pyStrip_eq_self _ hhead hlast
  rw [parseLenLine, hstrip, splitOnChar_append_cons ',' _ _ (natToChars_no_comma d),
    splitOnChar_no_sep ',' _ (format6_no_comma q)]
  simp [hval, parseFloat?_format6_round6, bind, Option.bind]

theorem parsePostingLine_roundtrip (tid did : Nat) (po : Posting) :
    parsePostingLine (postingLine tid did po) = some (tid, did, loadedPosting po) := by
  obtain ⟨hA, hAd, hAv⟩ := natToChars_spec tid
  obtain ⟨hB, hBd, hBv⟩ := natToChars_spec did
  obtain ⟨hD, hDd, hDv⟩ := natToChars_spec po.tf
  obtain ⟨hF, hFd, hFv⟩ := natToChars_spec (po.df.getD 0)
  obtain ⟨hC, hCall, hClast⟩ := format6_facts (po.tf_idf.getD 0)
  obtain ⟨hE, hEall, hElast⟩ := format6_facts (po.idf.getD 0)
  have hform : postingLine tid did po =
      natToChars tid ++ ',' :: (natToChars did ++ ',' :: (format6 (po.tf_idf.getD 0) ++
        ',' :: (natToChars po.tf ++ ',' :: (format6 (po.idf.getD 0) ++
        ',' :: natToChars (po.df.getD 0))))) := by
    simp [postingLine]
  have hR5 : format6 (po.idf.getD 0) ++ ',' :: natToChars (po.df.getD 0) ≠ [] := by
    simp
  have hR4 : natToChars po.tf ++ ',' :: (format6 (po.idf.getD 0) ++
      ',' :: natToChars (po.df.getD 0)) ≠ [] := by simp
  have hR3 : format6 (po.tf_idf.getD 0) ++ ',' :: (natToChars po.tf ++
      ',' :: (format6 (po.idf.getD 0) ++ ',' :: natToChars (po.df.getD 0))) ≠ [] := by simp
  have hR2 : natToChars did ++ ',' :: (format6 (po.tf_idf.getD 0) ++
      ',' :: (natToChars po.tf ++ ',' :: (format6 (po.idf.getD 0) ++
      ',' :: natToChars (po.df.getD 0)))) ≠ [] := by simp
  have hhead : ∀ c ∈ (postingLine tid did po).head?, isPySpace c = false := by
    intro c hcm
    rw [hform, List.head?_append_of_ne_nil _ hA] at hcm
    exact digit_not_space c (hAd c (List.mem_of_mem_head? hcm))
  have hlast : ∀ c ∈ (postingLine tid did po).getLast?, isPySpace c = false := by
    intro c hcm
    rw [hform, getLast?_append_cons _ ',' _ hR2, getLast?_append_cons _ ',' _ hR3,
      getLast?_append_cons _ ',' _ hR4, getLast?_append_cons _ ',' _ hR5,
      getLast?_append_cons _ ',' _ hF] at hcm
    exact digit_not_space c (hFd c (List.mem_of_mem_getLast? hcm))
  have hstrip := pyStrip_eq_self _ hhead hlast
  rw [parsePostingLine, hstrip, hform,
    splitOnChar_append_cons ',' _ _ (natToChars_no_comma tid),
    splitOnChar_append_cons ',' _ _ (natToChars_no_comma did),
    splitOnChar_append_cons ',' _ _ (format6_no_comma (po.tf_idf.getD 0)),
    splitOnChar_append_cons ',' _ _ (natToChars_no_comma po.tf),
    splitOnChar_append_cons ',' _ _ (format6_no_comma (po.idf.getD 0)),
    splitOnChar_no_sep ',' _ (natToChars_no_comma (po.df.getD 0))]
  simp [hAv, hBv, hDv, hFv, parseFloat?_format6_round6, bind, Option.bind, loadedPosting]

theorem format6_round6 (q : ℚ) : format6 (round6 q) = format6 q := format6_idempotent q

theorem postingLine_loadedPosting (tid did : Nat) (po : Posting) :
    postingLine tid did (loadedPosting po) = postingLine tid did po := by
  simp [postingLine, loadedPosting, format6_round6]

theorem parseLines_all {α β : Type} (parse : List Char → Option β) (f : α → List Char)
    (g : α → β) : ∀ l : List α, (∀ x ∈ l, parse (f x) = some (g x)) →
    parseLines parse (l.map f) = (l.map g, true) := by
  intro l
  induction l with
  | nil => intro _; rfl
  | cons x t ih =>
    intro hp
    have hx := hp x (by simp)
    simp only [List.map_cons, parseLines, hx]
    rw [ih (fun y hy => hp y (by simp [hy]))]

theorem postingsInsert_group (tid : Nat) :
    ∀ (inner : List (Nat × Posting)) (acc : List (Nat × List (Nat × Posting))),
      (inner.map (fun e => (tid, e.1, e.2))).foldl postingsInsert acc =
        if inner.isEmpty then acc
        else dictSet acc tid (inner.foldl (fun d e => dictSet d e.1 e.2)
          (dictGetD acc tid [])) := by
  intro inner
  induction inner with
  | nil => intro acc; rfl
  | cons e es ih =>
    intro acc
    simp only [List.map_cons, List.foldl_cons]
    rw [ih]
    by_cases hes : es.isEmpty
    · have h0 : es = [] := by simpa [List.isEmpty_iff] using hes
      subst h0
      simp [postingsInsert]
    · have hes2 : es.isEmpty = false := by simpa [Bool.not_eq_true] using hes
      have hcons : (e :: es).isEmpty = false := rfl
      rw [hes2, hcons]
      simp only [Bool.false_eq_true, if_false]
      show dictSet (postingsInsert acc (tid, e.1, e.2)) tid
          (es.foldl (fun d e => dictSet d e.1 e.2)
            (dictGetD (postingsInsert acc (tid, e.1, e.2)) tid [])) = _
      rw [postingsInsert, dictGetD_dictSet_same, dictSet_dictSet_same]

theorem buildPostings_flat :
    ∀ (groups : List (Nat × List (Nat × Posting))) (acc : List (Nat × List (Nat × Posting))),
      (groups.map Prod.fst).Nodup →
      (∀ k ∈ groups.map Prod.fst, k ∉ acc.map Prod.fst) →
      (∀ g ∈ groups, g.2 ≠ [] ∧ (g.2.map Prod.fst).Nodup) →
      (groups.flatMap (fun g => g.2.map (fun e => (g.1, e.1, e.2)))).foldl postingsInsert acc =
        acc ++ groups := by
  intro groups
  induction groups with
  | nil => intro acc _ _ _; simp
  | cons g t ih =>
    intro acc hnd hdisj hin
    obtain ⟨g1, g2⟩ := g
    obtain ⟨hg_ne, hg_nd⟩ := hin (g1, g2) (by simp)
    simp only [List.flatMap_cons, List.foldl_append]
    rw [postingsInsert_group]
    have hge : g2.isEmpty = false := by
      cases g2 with
      | nil => exact absurd rfl hg_ne
      | cons a b => rfl
    rw [hge]
    simp only [Bool.false_eq_true, if_false]
    have hfresh : g1 ∉ acc.map Prod.fst := hdisj g1 (by simp)
    have hget : dictGetD acc g1 ([] : List (Nat × Posting)) = [] := by
      rw [dictGetD, dictGet?_not_mem acc g1 hfresh]
      rfl
    rw [hget]
    rw [show g2.foldl (fun d e => dictSet d e.1 e.2) ([] : List (Nat × Posting)) =
      buildDict g2 from rfl]
    rw [buildDict_eq_self g2 (by simpa using hg_nd)]
    rw [dictSet_fresh acc g1 g2 hfresh]
    simp only [List.map_cons, List.nodup_cons] at hnd
    have hside : ∀ k ∈ t.map Prod.fst, k ∉ (acc ++ [(g1, g2)]).map Prod.fst := by
      intro k hk
      simp only [List.map_append, List.mem_append, List.map_cons, List.map_nil,
        List.mem_singleton, not_or]
      exact ⟨fun hh => hdisj k (by simp [hk]) hh, fun hh => hnd.1 (hh ▸ hk)⟩
    rw [ih (acc ++ [(g1, g2)]) hnd.2 hside (fun x hx => hin x (by simp [hx]))]
    simp

theorem buildPostingsDict_flatMap (groups : List (Nat × List (Nat × Posting)))
    (hnd : (groups.map Prod.fst).Nodup)
    (hin : ∀ g ∈ groups, g.2 ≠ [] ∧ (g.2.map Prod.fst).Nodup) :
    buildPostingsDict (groups.flatMap (fun g => g.2.map (fun e => (g.1, e.1, e.2)))) =
      groups := by
  have h := buildPostings_flat groups [] hnd (by simp) hin
  simpa [buildPostingsDict] using h

/-- C2 counterexample: a document name containing a comma breaks the
round trip.  The saved `documents.dat` line `a,b,1` splits back into three
fields, so the load of the just-saved directory raises (returns `False`),
and re-saving the resulting state yields files that differ from the first
save. -/
theorem save_load_save_cex :
    ((Indexer.load_index emptyIndexer
        ({emptyIndexer with documents := [("a,b".toList, 1)]} : Indexer).save_index.toLoad).2
      = false) ∧
    (Indexer.load_index emptyIndexer
        ({emptyIndexer with documents := [("a,b".toList, 1)]} : Indexer).save_index.toLoad).1.save_index ≠
      ({emptyIndexer with documents := [("a,b".toList, 1)]} : Indexer).save_index := by
  decide

/-- C2 amended: for well-formed index states — every document and term name
free of commas and (in this line-level model) newlines and not beginning
with whitespace, the four tables genuine dicts (no duplicate keys), and
every term's posting dict non-empty — loading a just-saved index into a
fresh indexer succeeds and re-saving reproduces all four files
byte-identically: the `{x:.6f}` float fields come back as their 6-decimal
rounding, which formats to the same bytes again. -/
theorem save_load_save (ix : Indexer)
    (hdnd : (ix.documents.map Prod.fst).Nodup)
    (hdok : ∀ e ∈ ix.documents, ',' ∉ e.1 ∧ ∀ c ∈ e.1.head?, isPySpace c = false)
    (htnd : (ix.terms.map Prod.fst).Nodup)
    (htok : ∀ e ∈ ix.terms, ',' ∉ e.1 ∧ ∀ c ∈ e.1.head?, isPySpace c = false)
    (hpnd : (ix.postings.map Prod.fst).Nodup)
    (hpin : ∀ g ∈ ix.postings, g.2 ≠ [] ∧ (g.2.map Prod.fst).Nodup)
    (hlnd : (ix.doc_lengths.map Prod.fst).Nodup) :
    (Indexer.load_index emptyIndexer ix.save_index.toLoad).2 = true ∧
    (Indexer.load_index emptyIndexer ix.save_index.toLoad).1.save_index = ix.save_index := by
  have hdocs : parseLines parseNameIdLine
      (ix.documents.map (fun e => e.1 ++ ',' :: natToChars e.2)) = (ix.documents, true) := by
    have h := parseLines_all parseNameIdLine (fun e => e.1 ++ ',' :: natToChars e.2)
      (fun e => e) ix.documents
      (fun e he => parseNameIdLine_roundtrip e.1 e.2 (hdok e he).1 (hdok e he).2)
    simpa using h
  have hterms : parseLines parseNameIdLine
      (ix.terms.map (fun e => e.1 ++ ',' :: natToChars e.2)) = (ix.terms, true) := by
    have h := parseLines_all parseNameIdLine (fun e => e.1 ++ ',' :: natToChars e.2)
      (fun e => e) ix.terms
      (fun e he => parseNameIdLine_roundtrip e.1 e.2 (htok e he).1 (htok e he).2)
    simpa using h
  have hplines : ix.postings.flatMap (fun g => g.2.map (fun e => postingLine g.1 e.1 e.2)) =
      (ix.postings.flatMap (fun g => g.2.map (fun e => (g.1, e.1, e.2)))).map
        (fun t => postingLine t.1 t.2.1 t.2.2) := by
    simp [List.map_flatMap, List.map_map, Function.comp_def]
  have hppar : parseLines parsePostingLine
      (ix.postings.flatMap (fun g => g.2.map (fun e => postingLine g.1 e.1 e.2))) =
      ((ix.postings.flatMap (fun g => g.2.map (fun e => (g.1, e.1, e.2)))).map
        (fun t => (t.1, t.2.1, loadedPosting t.2.2)), true) := by
    rw [hplines]
    exact parseLines_all parsePostingLine _ _ _
      (fun t _ => parsePostingLine_roundtrip t.1 t.2.1 t.2.2)
  have hflat : (ix.postings.flatMap (fun g => g.2.map (fun e => (g.1, e.1, e.2)))).map
        (fun t => (t.1, t.2.1, loadedPosting t.2.2)) =
      (ix.postings.map (fun g => (g.1, g.2.map (fun e => (e.1, loadedPosting e.2))))).flatMap
        (fun g => g.2.map (fun e => (g.1, e.1, e.2))) := by
    simp [List.map_flatMap, List.flatMap_map, List.map_map, Function.comp_def]
  have hbuildp : buildPostingsDict
      ((ix.postings.map (fun g => (g.1, g.2.map (fun e => (e.1, loadedPosting e.2))))).flatMap
        (fun g => g.2.map (fun e => (g.1, e.1, e.2)))) =
      ix.postings.map (fun g => (g.1, g.2.map (fun e => (e.1, loadedPosting e.2)))) := by
    apply buildPostingsDict_flatMap
    · simpa [List.map_map, Function.comp_def] using hpnd
    · intro g' hg'
      obtain ⟨g, hg, rfl⟩ := List.mem_map.mp hg'
      obtain ⟨h1, h2⟩ := hpin g hg
      constructor
      · simpa using h1
      · simpa [List.map_map, Function.comp_def] using h2
  have hlen : parseLines parseLenLine
      (ix.doc_lengths.map (fun e => natToChars e.1 ++ ',' :: format6 e.2)) =
      (ix.doc_lengths.map (fun e => (e.1, round6 e.2)), true) :=
    parseLines_all parseLenLine _ _ _ (fun e _ => parseLenLine_roundtrip e.1 e.2)
  have hlbd : buildDict (ix.doc_lengths.map (fun e => (e.1, round6 e.2))) =
      ix.doc_lengths.map (fun e => (e.1, round6 e.2)) := by
    apply buildDict_eq_self
    simpa [List.map_map, Function.comp_def] using hlnd
  unfold Indexer.load_index
  simp only [Indexer.save_index, SavedFiles.toLoad]
  rw [hdocs, hterms, hppar, hlen]
  simp only [Bool.not_true, Bool.false_eq_true, if_false]
  rw [buildDict_eq_self ix.documents hdnd, buildDict_eq_self ix.terms htnd, hflat, hbuildp, hlbd]
  refine ⟨trivial, ?_⟩
  congr 1
  · simp [List.flatMap_map, List.map_map, Function.comp_def, postingLine_loadedPosting]
  · simp [List.map_map, Function.comp_def, format6_round6]

/-- C2 amended witness: the concrete four-table index `rtIx` satisfies the
well-formedness side conditions, its saved directory loads back with
`True`, and re-saving reproduces the same four files. -/
theorem save_load_save_witness :
    ((rtIx.documents.map Prod.fst).Nodup ∧
     (∀ e ∈ rtIx.documents, ',' ∉ e.1 ∧ ∀ c ∈ e.1.head?, isPySpace c = false) ∧
     (rtIx.terms.map Prod.fst).Nodup ∧
     (∀ e ∈ rtIx.terms, ',' ∉ e.1 ∧ ∀ c ∈ e.1.head?, isPySpace c = false) ∧
     (rtIx.postings.map Prod.fst).Nodup ∧
     (∀ g ∈ rtIx.postings, g.2 ≠ [] ∧ (g.2.map Prod.fst).Nodup) ∧
     (rtIx.doc_lengths.map Prod.fst).Nodup) ∧
    ((Indexer.load_index emptyIndexer rtIx.save_index.toLoad).2 = true ∧
     (Indexer.load_index emptyIndexer rtIx.save_index.toLoad).1.save_index = rtIx.save_index) := by
  refine ⟨⟨by decide, by decide, by decide, by decide, by decide, by decide, by decide⟩, ?_⟩
  exact save_load_save rtIx (by decide) (by decide) (by decide) (by decide) (by decide)
    (by decide) (by decide)
